import Mathlib

/-!
# Shallow embedding of the lysimeter-analysis pipeline core

This file embeds, in Lean 4, the core of the `lysimeter_analysis` Python
package: the non-standard-event (NSE) detector
(`lysimeter_analysis/non_standard_events.py`), the water-balance signal
reconstructor (`lysimeter_analysis/water_balance.py`), the load-cell
calibration resolver (`lysimeter_analysis/load_cell_calibration.py`) and the
aggregation frequency check (`lysimeter_analysis/utils.py`), and proves
properties of the embedding.

Modelling conventions:
* A pandas `DataFrame` is an association list of column name to cell list
  (`Table`), preserving column order; `df[name] = v` replaces the column in
  place when present and appends it at the end otherwise, as pandas does.
* A cell is `Cell.na` (NaN / None missing sentinel), `Cell.num q` (a float,
  modelled as an exact rational) or `Cell.str s` (an object cell).
* Timestamps are modelled as rationals (`Cell.num`); only their total order
  is ever used by the source.
* Float comparisons against NaN are `False` in pandas; accordingly every
  comparison on `Cell.na` yields `false`.
* `raise ValueError(...)` is modelled with `Except String`.
-/

/-- A cell of the data table: missing (NaN/None), numeric, or string. -/
inductive Cell where
  | na : Cell
  | num : ℚ → Cell
  | str : String → Cell
deriving DecidableEq, Repr

/-- A data frame: ordered association list of column name to cell column. -/
abbrev Table := List (String × List Cell)

/-- Column names, in order (`df.columns`). -/
def Table.colNames (t : Table) : List String := t.map (fun p => p.1)

/-- Column lookup (`df[name]` read); first matching column. -/
def Table.findCol (t : Table) (n : String) : Option (List Cell) :=
  (List.find? (fun p => p.1 = n) t).map (fun p => p.2)

/-- Column lookup with default empty column. -/
def Table.getCol (t : Table) (n : String) : List Cell :=
  (t.findCol n).getD []

/-- Helper of `Table.setCol`: replace every `n`-entry in place. -/
def Table.replaceCol (t : Table) (n : String) (v : List Cell) : Table :=
  match t with
  | [] => []
  | p :: ps => (if p.1 = n then (n, v) else p) :: Table.replaceCol ps n v

/-- Column write (`df[name] = v`): replace in place if the column is
present, else append it at the end, as pandas column assignment does. -/
def Table.setCol (t : Table) (n : String) (v : List Cell) : Table :=
  match t with
  | [] => [(n, v)]
  | p :: ps =>
    if p.1 = n then (n, v) :: Table.replaceCol ps n v
    else p :: Table.setCol ps n v

/-- Membership of a column name (`name in df.columns`). -/
def Table.hasCol (t : Table) (n : String) : Bool :=
  t.any (fun p => p.1 = n)

/-- Substring test, modelling the Python `pat in s` operator for the
non-empty literal patterns used by the source. -/
def strContains (s pat : String) : Bool :=
  (s.splitOn pat).length != 1

/-- `List.mapIdx` with an explicit start offset (helper for index-aware
columnwise operations). -/
def mapIdxGo {α β : Type} (f : Nat → α → β) : Nat → List α → List β
  | _, [] => []
  | i, a :: as => f i a :: mapIdxGo f (i + 1) as

/-- Map a function receiving the row index over a column. -/
def mapIdxL {α β : Type} (f : Nat → α → β) (l : List α) : List β :=
  mapIdxGo f 0 l

/-- `df.loc[mask, col] = f(old)` : apply `f` exactly at the rows where the
boolean mask holds (row alignment by position). -/
def maskApply (mask : List Bool) (f : Cell → Cell) (l : List Cell) : List Cell :=
  mapIdxL (fun i c => if mask.getD i false then f c else c) l

/-! ## non_standard_events.py -/

/-- One row of the manually-defined NSE table: `Start Datetime`,
`Stop Datetime`, `Event Type` (the `Notes` field is never read by
`detect_nse`). -/
structure MRow where
  start : ℚ
  stop : ℚ
  etype : String
deriving DecidableEq, Repr

/-- `series.diff()`: first difference; the first row and any row whose
operand is missing or non-numeric yields NaN. -/
def diffCells (l : List Cell) : List Cell :=
  mapIdxL
    (fun i _ =>
      match l.getD (i - 1) Cell.na, l.getD i Cell.na with
      | Cell.num a, Cell.num b => if i = 0 then Cell.na else Cell.num (b - a)
      | _, _ => Cell.na)
    l

/-- Timestamp-in-interval test for the manual mask
`(df['TIMESTAMP'] >= start) & (df['TIMESTAMP'] <= stop)`. -/
def inRange (r : MRow) (c : Cell) : Bool :=
  match c with
  | Cell.num t => decide (r.start ≤ t) && decide (t ≤ r.stop)
  | _ => false

/-- One iteration of the manual-NSE loop body of `detect_nse`
(non_standard_events.py lines 94-106), acting on the pair
(`{c}_NSE` column, `{c}_NSE_Type` column).  The three masked statements are
applied in source order; each statement re-evaluates its mask against the
current state, exactly as the pandas `.loc` statements do. -/
def manualStep (ts : List Cell) (r : MRow) (p : List Cell × List Cell) :
    List Cell × List Cell :=
  let mask := ts.map (inRange r)
  let nse' := maskApply mask (fun _ => Cell.num 1) p.1
  let typ' := maskApply mask
    (fun c => match c with
      | Cell.na => Cell.str r.etype
      | c => c) p.2
  let typ'' := maskApply mask
    (fun c => match c with
      | Cell.str s => Cell.str (s ++ ", " ++ r.etype)
      | c => c) typ'
  (nse', typ'')

/-- The automatic-detection mask
`(df[c_deltaMVV] > threshold) & (df[c_NSE] == 0)`
(non_standard_events.py line 109).  A NaN delta compares `False`. -/
def autoMask (delta nse : List Cell) (thr : ℚ) : List Bool :=
  (List.range nse.length).map
    (fun i =>
      (match delta.getD i Cell.na with
       | Cell.num d => decide (thr < d)
       | _ => false)
      && (nse.getD i Cell.na == Cell.num 0))

/-- The flag/type pair after the manual pass of `detect_nse`
(non_standard_events.py lines 88-106): both columns are initialized
(`_NSE = 0`, `_NSE_Type = None`) over the table length `n`, then every
manually defined event row is applied in order. -/
def detectState (ts : List Cell) (n : Nat) (manual : Option (List MRow)) :
    List Cell × List Cell :=
  let init : List Cell × List Cell :=
    (List.replicate n (Cell.num 0), List.replicate n Cell.na)
  match manual with
  | none => init
  | some rows => rows.foldl (fun p r => manualStep ts r p) init

/-- The flag/type pair after the automatic pass of `detect_nse`
(non_standard_events.py lines 108-111): the automatic mask is evaluated
once against the post-manual state, then both columns are updated with it. -/
def detectFlags (base ts : List Cell) (thr : ℚ) (manual : Option (List MRow)) :
    List Cell × List Cell :=
  let st := detectState ts base.length manual
  let amask := autoMask (diffCells base) st.1 thr
  (maskApply amask (fun _ => Cell.num 1) st.1,
   maskApply amask (fun _ => Cell.str "auto-detected") st.2)

/-- Per-channel body of `detect_nse` (non_standard_events.py lines 85-114):
compute the first difference, initialize flag and type columns, run the
manual pass, then the automatic pass.  The `TIMESTAMP` column and the three
`{c}_NSE`/`{c}_NSE_Type`/`{c}_deltaMVV` columns are read and written against
the running table state; the manual and automatic passes only touch the two
flag/type columns, so their net effect (`detectFlags`) is stored once. -/
def detectChan (a : Table) (c : String) (thr : ℚ) (manual : Option (List MRow)) :
    Table :=
  let base := a.getCol c
  let fl := detectFlags base (a.getCol "TIMESTAMP") thr manual
  let a := a.setCol (c ++ "_deltaMVV") (diffCells base)
  let a := a.setCol (c ++ "_NSE") fl.1
  a.setCol (c ++ "_NSE_Type") fl.2

/-- `_select_columns` (non_standard_events.py lines 63-73): the candidate
names that actually occur in the table, in candidate order. -/
def selectColumns (df : Table) (possible : List String) : List String :=
  possible.filter (fun c => df.hasCol c)

/-- `detect_nse` (non_standard_events.py lines 75-116): select columns
(raising if none of the expected columns are found), then process each
selected channel in order. -/
def detectNse (df : Table) (possible : List String) (thr : ℚ)
    (manual : Option (List MRow)) : Except String Table :=
  let cols := selectColumns df possible
  if cols.isEmpty then
    Except.error "None of the expected columns for NSE detection were found."
  else
    Except.ok (cols.foldl (fun a c => detectChan a c thr manual) df)

/-- The state of `self.df` after calling `detect_nse`: on the error path the
`ValueError` is raised inside `_select_columns`, before any column of
`self.df` has been assigned, so the caller observes the unmodified input
table. -/
def detectNseSelf (df : Table) (possible : List String) (thr : ℚ)
    (manual : Option (List MRow)) : Table :=
  match detectNse df possible thr manual with
  | Except.error _ => df
  | Except.ok t => t

/-! ## water_balance.py -/

/-- Extract the numeric value of a cell, if any. -/
def cellNum? (c : Cell) : Option ℚ :=
  match c with
  | Cell.num q => some q
  | _ => none

/-- `df[column] * factor * -1` on one cell (water_balance.py lines 81-83);
NaN propagates. -/
def cellTimesNegFactor (f : ℚ) (c : Cell) : Cell :=
  match c with
  | Cell.num x => Cell.num (x * f * -1)
  | _ => Cell.na

/-- `series.where(~mask)`: rows where the mask holds become missing. -/
def maskToNa (mask : List Bool) (l : List Cell) : List Cell :=
  mapIdxL (fun i c => if mask.getD i false then Cell.na else c) l

/-- Index and value of the nearest numeric cell strictly before `i`. -/
def prevNumIdx (l : List Cell) (i : Nat) : Option (Nat × ℚ) :=
  (List.range i).reverse.findSome?
    (fun j => (cellNum? (l.getD j Cell.na)).map (fun q => (j, q)))

/-- Index and value of the nearest numeric cell strictly after `i`. -/
def nextNumIdx (l : List Cell) (i : Nat) : Option (Nat × ℚ) :=
  (List.range' (i + 1) (l.length - (i + 1))).findSome?
    (fun j => (cellNum? (l.getD j Cell.na)).map (fun q => (j, q)))

/-- `series.interpolate(method='linear', limit_direction='both')`: each
missing cell between two numeric anchors is filled linearly in position;
with `limit_direction='both'` and no limit, leading (resp. trailing) missing
cells are filled flat with the first (resp. last) numeric value, as
`np.interp` extrapolates with the edge values.  A series with no numeric
value at all is returned unchanged. -/
def interpLinearBoth (l : List Cell) : List Cell :=
  mapIdxL
    (fun i c =>
      match c with
      | Cell.na =>
        match prevNumIdx l i, nextNumIdx l i with
        | some (j, a), some (k, b) =>
            Cell.num (a + (b - a) * ((i : ℚ) - (j : ℚ)) / ((k : ℚ) - (j : ℚ)))
        | some (_, a), none => Cell.num a
        | none, some (_, b) => Cell.num b
        | none, none => Cell.na
      | c => c)
    l

/-- `fillna(method='ffill')` helper carrying the last non-missing cell. -/
def ffillGo (carry : Option Cell) : List Cell → List Cell
  | [] => []
  | Cell.na :: cs =>
    (match carry with
     | some v => v
     | none => Cell.na) :: ffillGo carry cs
  | c :: cs => c :: ffillGo (some c) cs

/-- `series.fillna(method='ffill')`. -/
def ffill (l : List Cell) : List Cell := ffillGo none l

/-- `series.fillna(method='bfill')`. -/
def bfill (l : List Cell) : List Cell := (ffillGo none l.reverse).reverse

/-- `_interpolate_nse_eta` (water_balance.py lines 104-132): if the channel
has an `_NSE` column and at least one flagged row, re-copy the `_deltaMM`
column into `_ETa_Raw`, blank the flagged rows, linearly interpolate across
them (both directions), and forward- then backward-fill any residue.  The
source assigns the `_ETa_Raw` column several times in sequence; only the
final assignment is observable, so a single column write is performed. -/
def interpolateNseEta (a : Table) (dwc : String) : Table :=
  let nseCol := dwc.replace "_deltaMM" "_NSE"
  match a.findCol nseCol with
  | none => a
  | some nsev =>
    let mask := nsev.map (fun c => c == Cell.num 1)
    if mask.any (fun b => b) then
      let ecr := dwc.replace "_deltaMM" "_ETa_Raw"
      let v := bfill (ffill (interpLinearBoth (maskToNa mask (a.getCol dwc))))
      a.setCol ecr v
    else a

/-- `eta_values.pct_change() * 100` magnitude test
(water_balance.py lines 152-155).  `pct_change` pads missing values forward
before differencing (pandas default `fill_method='pad'`); a NaN operand
compares `False`; a zero predecessor gives `±inf` (flagged) unless the
current value is also zero (`0/0 = NaN`, not flagged). -/
def pctMask (x : List Cell) (thr : ℚ) : List Bool :=
  let y := ffill x
  mapIdxL
    (fun i _ =>
      if i = 0 then false
      else
        match y.getD (i - 1) Cell.na, y.getD i Cell.na with
        | Cell.num a, Cell.num b =>
          if a = 0 then !(b == 0)
          else decide (|(b / a - 1) * 100| > thr)
        | _, _ => false)
    x

/-- `eta_values < 0` (water_balance.py line 158). -/
def negMask (x : List Cell) : List Bool :=
  x.map (fun c =>
    match c with
    | Cell.num q => decide (q < 0)
    | _ => false)

/-- The three-standard-deviation outlier test (water_balance.py lines
160-168).  With `mean` and sample variance `var` (pandas `ddof=1`) over the
non-missing values, `x < mean - 3*std ∨ x > mean + 3*std` is encoded
square-free as `(x - mean)^2 > 9 * var`, which is equivalent because
`std = sqrt var ≥ 0`.  With fewer than two non-missing values pandas yields
`std = NaN` and every comparison is `False`. -/
def stdMask (x : List Cell) : List Bool :=
  let present := x.filterMap cellNum?
  let n := present.length
  if 2 ≤ n then
    let mean := present.sum / (n : ℚ)
    let var := (present.map (fun v => (v - mean) ^ 2)).sum / ((n : ℚ) - 1)
    x.map (fun c =>
      match c with
      | Cell.num b => decide ((b - mean) ^ 2 > 9 * var)
      | _ => false)
  else x.map (fun _ => false)

/-- `df[c_NSE] == 1` as a mask, or all-`False` when the channel has no NSE
column (water_balance.py lines 171-175). -/
def nseMaskOf (a : Table) (ecr : String) (x : List Cell) : List Bool :=
  match a.findCol (ecr.replace "_ETa_Raw" "_NSE") with
  | some l => l.map (fun c => c == Cell.num 1)
  | none => List.replicate x.length false

/-- The combined noisy mask (water_balance.py lines 177-181). -/
def noisyMaskAll (x : List Cell) (nsem : List Bool) (thr : ℚ) : List Bool :=
  let pm := pctMask x thr
  let nm := negMask x
  let sm := stdMask x
  mapIdxL
    (fun i _ => pm.getD i false || nm.getD i false || sm.getD i false || nsem.getD i false)
    x

/-- The scan predicate of the noisy-span boundary search
(water_balance.py lines 194-203): a position is skipped while it is flagged
noisy or its raw value is non-positive (a missing value is neither). -/
def badPos (x : List Cell) (mask : List Bool) (k : Nat) : Bool :=
  mask.getD k false ||
    (match x.getD k Cell.na with
     | Cell.num q => decide (q ≤ 0)
     | _ => false)

/-- The backward boundary scan (water_balance.py lines 193-197): starting
from `i - 1`, decrement while the position is bad; `none` when the scan
falls off the front (`start_idx < 0`). -/
def leftBound (p : Nat → Bool) : Nat → Option Nat
  | 0 => none
  | j + 1 => if p j then leftBound p j else some j

/-- Fuelled forward scan helper. -/
def rightBoundGo (p : Nat → Bool) : Nat → Nat → Option Nat
  | 0, _ => none
  | fuel + 1, j => if p j then rightBoundGo p fuel (j + 1) else some j

/-- The forward boundary scan (water_balance.py lines 199-203): starting
from `j`, increment while in range and bad; `none` when the scan reaches
the end of the table (`end_idx = len`), which fails the subsequent
`end_idx < len(self.df)` test. -/
def rightBound (p : Nat → Bool) (n j : Nat) : Option Nat :=
  rightBoundGo p (n - j) j

/-- The interpolation writes of one noisy index (water_balance.py lines
205-214): positions strictly between the boundaries receive
`start_val + ((end_val - start_val) / span) * (idx - start_idx)`, computed
from the raw snapshot `x`; a missing boundary value propagates NaN. -/
def writeSpan (x : List Cell) (s e : Nat) (v : List Cell) : List Cell :=
  let a := x.getD s Cell.na
  let b := x.getD e Cell.na
  mapIdxL
    (fun idx c =>
      if s < idx ∧ idx < e then
        match a, b with
        | Cell.num p, Cell.num q =>
          Cell.num (p + (q - p) / ((e : ℚ) - (s : ℚ)) * ((idx : ℚ) - (s : ℚ)))
        | _, _ => Cell.na
      else c)
    v

/-- One iteration of the interpolation loop of `_interpolate_noisy_eta`
(water_balance.py lines 192-214): if row `i` is noisy, scan for clean
boundaries on both sides and, when both exist, rewrite the enclosed span. -/
def noisyStep (x : List Cell) (mask : List Bool) (v : List Cell) (i : Nat) :
    List Cell :=
  if mask.getD i false then
    match leftBound (badPos x mask) i,
      rightBound (badPos x mask) x.length (i + 1) with
    | some s, some e => writeSpan x s e v
    | _, _ => v
  else v

/-- The per-row interpolation loop of `_interpolate_noisy_eta`
(water_balance.py lines 191-214).  The scans and span values read the fixed
raw snapshot `x` and its mask; only the output column accumulates writes,
exactly as in the source. -/
def noisyLoop (x : List Cell) (mask : List Bool) : List Cell :=
  (List.range x.length).foldl (noisyStep x mask) x

/-- `_interpolate_noisy_eta` (water_balance.py lines 134-223): flag noisy
rows, store the flag column, seed the `_ETa` column with the raw values,
run the span-interpolation loop, and forward- then backward-fill.  When the
raw column is absent the source raises `ValueError`; inside `calculate_eta`
the column was assigned immediately before the call, so that branch is
unreachable there and the table is returned unchanged here. -/
def interpolateNoisyEta (a : Table) (ecr : String) (thr : ℚ) : Table :=
  match a.findCol ecr with
  | none => a
  | some x =>
    let nsem := nseMaskOf a ecr x
    let mask := noisyMaskAll x nsem thr
    let a := a.setCol (ecr.replace "_ETa_Raw" "_Noisy_Flag")
      (mask.map (fun b => Cell.num (if b then 1 else 0)))
    let eta := ecr.replace "_ETa_Raw" "_ETa"
    a.setCol eta (bfill (ffill (noisyLoop x mask)))

/-- `series.cumsum()` runner: missing cells stay missing and are skipped by
the running total. -/
def cumsumGo (acc : ℚ) : List Cell → List Cell
  | [] => []
  | Cell.num q :: cs => Cell.num (acc + q) :: cumsumGo (acc + q) cs
  | c :: cs => c :: cumsumGo acc cs

/-- `series.cumsum()`. -/
def cumsumCells (l : List Cell) : List Cell := cumsumGo 0 l

/-- `_calculate_cumulative_eta` (water_balance.py lines 225-234): for every
column of the snapshot of `df.columns` whose name contains `"_ETa"` but not
`"_Cumulative_ETa"`, store its running sum under the name obtained by
replacing `"_ETa"` with `"_Cumulative_ETa"`. -/
def calculateCumulativeEta (a : Table) : Table :=
  (a.colNames).foldl
    (fun acc col =>
      if strContains col "_ETa" && !strContains col "_Cumulative_ETa" then
        acc.setCol (col.replace "_ETa" "_Cumulative_ETa") (cumsumCells (acc.getCol col))
      else acc)
    a

/-- The `_deltaMM` column name of a channel (water_balance.py line 80). -/
def chanDwc (col : String) : String := col.replace "_deltaMVV" "_deltaMM"

/-- The `_ETa_Raw` column name of a channel (water_balance.py line 84). -/
def chanEcr (col : String) : String :=
  (chanDwc col).replace "_deltaMM" "_ETa_Raw"

/-- The `_ETa` column name of a channel (water_balance.py line 91). -/
def chanEta (col : String) : String :=
  (chanEcr col).replace "_ETa_Raw" "_ETa"

/-- The `_Noisy_Flag` column name of a channel (water_balance.py line 184). -/
def chanNfc (col : String) : String :=
  (chanEcr col).replace "_ETa_Raw" "_Noisy_Flag"

/-- The `_NSE` column name of a channel (water_balance.py line 112). -/
def chanNse (col : String) : String :=
  (chanDwc col).replace "_deltaMM" "_NSE"

/-- Per-channel body of `calculate_eta` (water_balance.py lines 78-97):
convert the `_deltaMVV` signal to `_deltaMM` depth, copy it to `_ETa_Raw`,
interpolate NSE periods, copy the result to `_ETa`, and interpolate noisy
values (default percentage threshold 70). -/
def processChan (a : Table) (f : ℚ) (col : String) : Table :=
  let a := a.setCol (chanDwc col) ((a.getCol col).map (cellTimesNegFactor f))
  let a := a.setCol (chanEcr col) (a.getCol (chanDwc col))
  let a := interpolateNseEta a (chanDwc col)
  let a := a.setCol (chanEta col) (a.getCol (chanEcr col))
  interpolateNoisyEta a (chanEcr col) 70

/-- The channel loop of `calculate_eta` (water_balance.py lines 78-97),
iterating over the snapshot of `df.columns` taken at entry. -/
def calcEtaLoop (t : Table) (f : ℚ) : Table :=
  ((t.colNames).filter (fun c => strContains c "_deltaMVV")).foldl
    (fun a col => processChan a f col) t

/-- `calculate_eta` (water_balance.py lines 66-102).  The guard that the
calibration factor has been set (`raise ValueError` when it is `None`) is
modelled by taking the factor `f : ℚ` as an argument. -/
def calculateEta (t : Table) (f : ℚ) : Table :=
  calculateCumulativeEta (calcEtaLoop t f)

/-! ## load_cell_calibration.py -/

/-- The preset calibration factors in mm per mV/V
(load_cell_calibration.py lines 24-27). -/
def defaultCalibrations : List (String × ℚ) :=
  [("SL", 157.43), ("LL", 76.2)]

/-- `calculate_calibration_factor` (load_cell_calibration.py lines 47-59):
requires both alpha and beta, and returns
`alpha * (1/1000) * (1/beta) * 1000`. -/
def calculateCalibrationFactor (alpha beta : Option ℚ) : Except String ℚ :=
  match alpha, beta with
  | some a, some b =>
    Except.ok (a * (1 / 1000) * (1 / b) * 1000)
  | _, _ =>
    Except.error
      "Both alpha (mV/V to kg) and beta (surface area) must be provided for custom calibration."

/-- `get_calibration_factor` (load_cell_calibration.py lines 61-76): a
truthy lysimeter type found among the presets wins; otherwise a previously
computed custom factor; otherwise the call raises.  (`if lysimeter_type`
is Python truthiness: `None` and `""` both fail it.) -/
def getCalibrationFactor (lysimeterType : Option String) (custom : Option ℚ) :
    Except String ℚ :=
  match lysimeterType with
  | some s =>
    if s ≠ "" then
      match defaultCalibrations.lookup s with
      | some v => Except.ok v
      | none =>
        match custom with
        | some f => Except.ok f
        | none => Except.error "Invalid lysimeter type provided or custom calibration not set."
    else
      match custom with
      | some f => Except.ok f
      | none => Except.error "Invalid lysimeter type provided or custom calibration not set."
  | none =>
    match custom with
    | some f => Except.ok f
    | none => Except.error "Invalid lysimeter type provided or custom calibration not set."

/-- The calibration-resolution contract (spec §4.4 `resolve`), composed from
the two source methods the way the class is used: the custom factor exists
exactly when `calculate_calibration_factor` succeeded on the provided
alpha/beta pair, and `get_calibration_factor` then arbitrates between the
preset and the custom factor. -/
def resolveCalibration (preset : Option String) (alpha beta : Option ℚ) :
    Except String ℚ :=
  getCalibrationFactor preset ((calculateCalibrationFactor alpha beta).toOption)

/-! ## utils.py -/

/-- The time-unit lookup of `convert_to_minutes` (utils.py lines 124-131). -/
def timeUnits : List (String × Nat) :=
  [("T", 1), ("H", 60), ("D", 1440), ("W", 10080), ("M", 43200), ("Y", 525600)]

/-- `convert_to_minutes` (utils.py lines 114-141): digits and letters are
extracted separately; a missing numeric part defaults to 1; an unknown unit
maps to 0 minutes. -/
def convertToMinutes (s : String) : Nat :=
  let numeric := String.mk (s.toList.filter Char.isDigit)
  let unit := String.mk (s.toList.filter Char.isAlpha)
  let n := if numeric = "" then 1 else numeric.toNat?.getD 0
  n * ((timeUnits.lookup unit).getD 0)

/-- The fallback input-timescale dictionary (utils.py lines 162-167). -/
def fallbackTimescale : List (String × String) :=
  [("Min5", "5T"), ("Min15", "15T"), ("Min60", "1H"), ("Daily", "1D")]

/-- The native-interval determination of `aggregate_data` (utils.py lines
169-182): the pandas-inferred frequency when available, else the mapped or
raw caller-supplied input timescale, else failure.  `pd.infer_freq` itself
is an external pandas boundary; its result is the `inferred` argument. -/
def aggDetect (inferred : Option String) (inputTimescale : Option String) :
    Option String :=
  match inferred with
  | some d => some d
  | none =>
    match inputTimescale with
    | some its =>
      match fallbackTimescale.lookup its with
      | some mapped => some mapped
      | none => some its
    | none => none

/-- The validation part of `aggregate_data` (utils.py lines 143-194):
determine the native interval, normalize the requested frequency through
the fallback dictionary, and reject the request when the native interval in
minutes exceeds the target interval in minutes.  On success it returns the
`(detected, frequency)` pair handed to the resampler
(`df.resample(frequency).agg(...)`, an external pandas boundary). -/
def aggregateData (inferred : Option String) (inputTimescale : Option String)
    (frequency : String) : Except String (String × String) :=
  match aggDetect inferred inputTimescale with
  | none =>
    Except.error
      "Could not infer the frequency of the input data. Please check the TIMESTAMP column."
  | some detected =>
    let freq := (fallbackTimescale.lookup frequency).getD frequency
    let detectedMinutes := convertToMinutes detected
    let frequencyMinutes := convertToMinutes freq
    if frequencyMinutes < detectedMinutes then
      Except.error "Cannot aggregate to a smaller timescale than the input timescale."
    else
      Except.ok (detected, freq)

/-! ## Basic lemmas about the list and table helpers -/

theorem mapIdxGo_getElem? {α β : Type} (f : Nat → α → β) (k : Nat) (l : List α)
    (i : Nat) : (mapIdxGo f k l)[i]? = (l[i]?).map (f (k + i)) := by
  induction l generalizing k i with
  | nil => simp [mapIdxGo]
  | cons a as ih =>
    cases i with
    | zero => simp [mapIdxGo]
    | succ n =>
      simp only [mapIdxGo, List.getElem?_cons_succ, ih (k + 1) n]
      have : k + 1 + n = k + (n + 1) := by omega
      rw [this]

theorem mapIdxL_getElem? {α β : Type} (f : Nat → α → β) (l : List α) (i : Nat) :
    (mapIdxL f l)[i]? = (l[i]?).map (f i) := by
  simpa using mapIdxGo_getElem? f 0 l i

theorem mapIdxGo_length {α β : Type} (f : Nat → α → β) (k : Nat) (l : List α) :
    (mapIdxGo f k l).length = l.length := by
  induction l generalizing k with
  | nil => rfl
  | cons a as ih => simp [mapIdxGo, ih]

theorem mapIdxL_length {α β : Type} (f : Nat → α → β) (l : List α) :
    (mapIdxL f l).length = l.length := mapIdxGo_length f 0 l

theorem getD_eq_getElem? {α : Type} (l : List α) (i : Nat) (d : α) :
    l.getD i d = (l[i]?).getD d := by
  simp [List.getD_eq_getElem?_getD]

theorem mapIdxL_getD {α β : Type} (f : Nat → α → β) (l : List α) (i : Nat)
    (d : β) (e : α) (hi : i < l.length) :
    (mapIdxL f l).getD i d = f i (l.getD i e) := by
  rw [getD_eq_getElem?, getD_eq_getElem?, mapIdxL_getElem?]
  rcases List.getElem?_eq_some_iff.mpr ⟨hi, rfl⟩ with h
  rw [h]
  rfl

theorem mapIdxL_getD_oob {α β : Type} (f : Nat → α → β) (l : List α) (i : Nat)
    (d : β) (hi : l.length ≤ i) : (mapIdxL f l).getD i d = d := by
  rw [getD_eq_getElem?, mapIdxL_getElem?, List.getElem?_eq_none (by omega)]
  rfl

theorem maskApply_getD (mask : List Bool) (f : Cell → Cell) (l : List Cell)
    (i : Nat) (hi : i < l.length) :
    (maskApply mask f l).getD i Cell.na =
      if mask.getD i false then f (l.getD i Cell.na) else l.getD i Cell.na := by
  unfold maskApply
  rw [mapIdxL_getD _ _ _ _ Cell.na hi]

theorem maskApply_length (mask : List Bool) (f : Cell → Cell) (l : List Cell) :
    (maskApply mask f l).length = l.length := mapIdxL_length _ _

theorem getD_map_bool {α : Type} (g : α → Bool) (l : List α) (i : Nat)
    (e : α) (hi : i < l.length) : (l.map g).getD i false = g (l.getD i e) := by
  rw [getD_eq_getElem?, getD_eq_getElem?, List.getElem?_map]
  rcases List.getElem?_eq_some_iff.mpr ⟨hi, rfl⟩ with h
  rw [h]
  rfl

theorem getD_map_bool_oob {α : Type} (g : α → Bool) (l : List α) (i : Nat)
    (hi : l.length ≤ i) : (l.map g).getD i false = false := by
  rw [getD_eq_getElem?, List.getElem?_map, List.getElem?_eq_none (by omega)]
  rfl


/-! ### Table lemmas -/

theorem findCol_replaceCol_ne (t : Table) (n n' : String) (v : List Cell)
    (h : n' ≠ n) : (t.replaceCol n v).findCol n' = t.findCol n' := by
  induction t with
  | nil => rfl
  | cons p ps ih =>
    by_cases hp : p.1 = n
    · have h1 : (decide (n = n')) = false := by
        simp only [decide_eq_false_iff_not]
        intro hq
        exact h hq.symm
      have h2 : (decide (p.1 = n')) = false := by
        simp only [decide_eq_false_iff_not]
        intro hq
        exact h (hq.symm.trans hp)
      simp only [Table.replaceCol, if_pos hp, Table.findCol, List.find?, h1, h2]
      exact ih
    · simp only [Table.replaceCol, if_neg hp, Table.findCol, List.find?]
      by_cases hq : p.1 = n'
      · simp [hq]
      · have : (decide (p.1 = n')) = false := by simp [hq]
        rw [this]
        exact ih

theorem findCol_setCol_self (t : Table) (n : String) (v : List Cell) :
    (t.setCol n v).findCol n = some v := by
  induction t with
  | nil => simp [Table.setCol, Table.findCol, List.find?]
  | cons p ps ih =>
    by_cases hp : p.1 = n
    · simp [Table.setCol, if_pos hp, Table.findCol, List.find?]
    · have : (decide (p.1 = n)) = false := by simp [hp]
      simp only [Table.setCol, if_neg hp, Table.findCol, List.find?, this]
      exact ih

theorem findCol_setCol_ne (t : Table) (n n' : String) (v : List Cell)
    (h : n' ≠ n) : (t.setCol n v).findCol n' = t.findCol n' := by
  induction t with
  | nil =>
    have : (decide (n = n')) = false := by
      simp only [decide_eq_false_iff_not]
      intro hq
      exact h hq.symm
    simp [Table.setCol, Table.findCol, List.find?, this]
  | cons p ps ih =>
    by_cases hp : p.1 = n
    · have h1 : (decide (n = n')) = false := by
        simp only [decide_eq_false_iff_not]
        intro hq
        exact h hq.symm
      have h2 : (decide (p.1 = n')) = false := by
        simp only [decide_eq_false_iff_not]
        intro hq
        exact h (hq.symm.trans hp)
      simp only [Table.setCol, if_pos hp, Table.findCol, List.find?, h1, h2]
      exact findCol_replaceCol_ne ps n n' v h
    · simp only [Table.setCol, if_neg hp, Table.findCol, List.find?]
      by_cases hq : p.1 = n'
      · simp [hq]
      · have : (decide (p.1 = n')) = false := by simp [hq]
        rw [this]
        exact ih

theorem mem_replaceCol (t : Table) (n : String) (v : List Cell)
    (p : String × List Cell) (hp : p ∈ t.replaceCol n v) :
    p = (n, v) ∨ p ∈ t := by
  induction t with
  | nil => simp [Table.replaceCol] at hp
  | cons q qs ih =>
    simp only [Table.replaceCol, List.mem_cons] at hp
    rcases hp with hp | hp
    · by_cases hq : q.1 = n
      · rw [if_pos hq] at hp
        exact Or.inl hp
      · rw [if_neg hq] at hp
        exact Or.inr (by simp [hp])
    · rcases ih hp with h | h
      · exact Or.inl h
      · exact Or.inr (List.mem_cons_of_mem _ h)

theorem mem_setCol (t : Table) (n : String) (v : List Cell)
    (p : String × List Cell) (hp : p ∈ t.setCol n v) :
    p = (n, v) ∨ p ∈ t := by
  induction t with
  | nil => simp only [Table.setCol, List.mem_singleton] at hp; exact Or.inl hp
  | cons q qs ih =>
    by_cases hq : q.1 = n
    · rw [Table.setCol, if_pos hq] at hp
      rcases List.mem_cons.mp hp with h | h
      · exact Or.inl h
      · rcases mem_replaceCol qs n v p h with h | h
        · exact Or.inl h
        · exact Or.inr (List.mem_cons_of_mem _ h)
    · rw [Table.setCol, if_neg hq] at hp
      rcases List.mem_cons.mp hp with h | h
      · exact Or.inr (by simp [h])
      · rcases ih h with h | h
        · exact Or.inl h
        · exact Or.inr (List.mem_cons_of_mem _ h)

theorem hasCol_iff_findCol (t : Table) (n : String) :
    t.hasCol n = true ↔ ∃ l, t.findCol n = some l := by
  induction t with
  | nil => simp [Table.hasCol, Table.findCol]
  | cons p ps ih =>
    by_cases hp : p.1 = n
    · simp [Table.hasCol, Table.findCol, List.find?, hp]
    · have hd : (decide (p.1 = n)) = false := by simp [hp]
      simp only [Table.hasCol, List.any_cons, Bool.or_eq_true, hd,
        Bool.false_or, Table.findCol, List.find?]
      exact ih

theorem findCol_isSome_setCol (t : Table) (n n' : String) (v : List Cell)
    (h : ∃ l, t.findCol n' = some l) :
    ∃ l, (t.setCol n v).findCol n' = some l := by
  by_cases hn : n' = n
  · exact ⟨v, hn ▸ findCol_setCol_self t n v⟩
  · rw [findCol_setCol_ne t n n' v hn]
    exact h

theorem findCol_mem (t : Table) (n : String) (l : List Cell)
    (h : t.findCol n = some l) : (n, l) ∈ t := by
  unfold Table.findCol at h
  rcases Option.map_eq_some'.mp h with ⟨p, hp, hpl⟩
  have hmem := List.mem_of_find?_eq_some hp
  have hpred : p.1 = n := by
    have := List.find?_some hp
    simpa using this
  have : p = (n, l) := by
    cases p
    simp only at hpred hpl
    simp [hpred, hpl]
  exact this ▸ hmem

/-! ### String lemmas for the derived column names -/

theorem str_append_right_cancel {a b s : String} (h : a ++ s = b ++ s) :
    a = b := by
  apply String.ext
  have hd := congrArg String.data h
  rw [String.data_append, String.data_append] at hd
  exact List.append_cancel_right hd

theorem str_append_suffix_ne (a b s t : String) (hs : s.data ≠ [])
    (ht : t.data ≠ []) (h : s.data.getLast? ≠ t.data.getLast?) :
    a ++ s ≠ b ++ t := by
  intro he
  have hd := congrArg String.data he
  rw [String.data_append, String.data_append] at hd
  obtain ⟨x, hx⟩ := Option.isSome_iff_exists.mp (List.getLast?_isSome.mpr hs)
  obtain ⟨y, hy⟩ := Option.isSome_iff_exists.mp (List.getLast?_isSome.mpr ht)
  have h1 : (a.data ++ s.data).getLast? = s.data.getLast? := by
    rw [List.getLast?_append, hx]
    rfl
  have h2 : (b.data ++ t.data).getLast? = t.data.getLast? := by
    rw [List.getLast?_append, hy]
    rfl
  exact h ((h1.symm.trans (congrArg List.getLast? hd)).trans h2)

theorem str_eq_empty_append (s : String) : s = "" ++ s := by
  apply String.ext
  rw [String.data_append]
  rfl

theorem name_dmvv_ne_nse (c c' : String) : c ++ "_deltaMVV" ≠ c' ++ "_NSE" := by
  apply str_append_suffix_ne <;> decide

theorem name_dmvv_ne_typ (c c' : String) :
    c ++ "_deltaMVV" ≠ c' ++ "_NSE_Type" := by
  apply str_append_suffix_ne <;> decide

theorem name_nse_ne_typ (c c' : String) : c ++ "_NSE" ≠ c' ++ "_NSE_Type" := by
  apply str_append_suffix_ne <;> decide

theorem name_dmvv_ne_ts (c : String) : c ++ "_deltaMVV" ≠ "TIMESTAMP" := by
  rw [str_eq_empty_append "TIMESTAMP"]
  apply str_append_suffix_ne <;> decide

theorem name_nse_ne_ts (c : String) : c ++ "_NSE" ≠ "TIMESTAMP" := by
  rw [str_eq_empty_append "TIMESTAMP"]
  apply str_append_suffix_ne <;> decide

theorem name_typ_ne_ts (c : String) : c ++ "_NSE_Type" ≠ "TIMESTAMP" := by
  rw [str_eq_empty_append "TIMESTAMP"]
  apply str_append_suffix_ne <;> decide

/-! ### Detector kernel lemmas -/

theorem replicate_getD {α : Type} (n i : Nat) (a d : α) (hi : i < n) :
    (List.replicate n a).getD i d = a := by
  rw [getD_eq_getElem?]
  induction n generalizing i with
  | zero => omega
  | succ m ih =>
    cases i with
    | zero => simp [List.replicate]
    | succ j =>
      simp only [List.replicate, List.getElem?_cons_succ]
      exact ih j (by omega)

/-- Substring relation used to state the label-accumulation properties. -/
def SubStr (s pat : String) : Prop := ∃ x y, s = x ++ pat ++ y

theorem SubStr.append_right {s pat : String} (t : String) (h : SubStr s pat) :
    SubStr (s ++ t) pat := by
  obtain ⟨x, y, hxy⟩ := h
  exact ⟨x, y ++ t, by rw [hxy, String.append_assoc (x ++ pat) y t]⟩

theorem SubStr_append_self (x pat : String) : SubStr (x ++ pat) pat :=
  ⟨x, "", (String.append_empty (x ++ pat)).symm⟩

theorem manualStep_fst_length (ts : List Cell) (r : MRow)
    (p : List Cell × List Cell) : (manualStep ts r p).1.length = p.1.length := by
  simp only [manualStep]
  exact maskApply_length _ _ _

theorem manualStep_snd_length (ts : List Cell) (r : MRow)
    (p : List Cell × List Cell) : (manualStep ts r p).2.length = p.2.length := by
  simp only [manualStep]
  rw [maskApply_length, maskApply_length]

theorem manualFold_fst_length (rows : List MRow) (ts : List Cell)
    (p : List Cell × List Cell) :
    ((rows.foldl (fun q r => manualStep ts r q) p).1).length = p.1.length := by
  induction rows generalizing p with
  | nil => rfl
  | cons r rs ih =>
    rw [List.foldl_cons, ih (manualStep ts r p), manualStep_fst_length]

theorem manualFold_snd_length (rows : List MRow) (ts : List Cell)
    (p : List Cell × List Cell) :
    ((rows.foldl (fun q r => manualStep ts r q) p).2).length = p.2.length := by
  induction rows generalizing p with
  | nil => rfl
  | cons r rs ih =>
    rw [List.foldl_cons, ih (manualStep ts r p), manualStep_snd_length]

theorem manualStep_fst_getD (ts : List Cell) (r : MRow)
    (p : List Cell × List Cell) (i : Nat) (hi : i < ts.length)
    (hlen : i < p.1.length) :
    (manualStep ts r p).1.getD i Cell.na =
      if inRange r (ts.getD i Cell.na) then Cell.num 1
      else p.1.getD i Cell.na := by
  simp only [manualStep]
  rw [maskApply_getD _ _ _ _ hlen, getD_map_bool _ _ _ Cell.na hi]

theorem manualStep_snd_getD (ts : List Cell) (r : MRow)
    (p : List Cell × List Cell) (i : Nat) (hi : i < ts.length)
    (hlen : i < p.2.length) :
    (manualStep ts r p).2.getD i Cell.na =
      if inRange r (ts.getD i Cell.na) then
        (match p.2.getD i Cell.na with
         | Cell.na => Cell.str (r.etype ++ ", " ++ r.etype)
         | Cell.str s => Cell.str (s ++ ", " ++ r.etype)
         | c => c)
      else p.2.getD i Cell.na := by
  simp only [manualStep]
  have hlen' : i < (maskApply (ts.map (inRange r))
      (fun c => match c with
        | Cell.na => Cell.str r.etype
        | c => c) p.2).length := by
    rw [maskApply_length]
    exact hlen
  rw [maskApply_getD _ _ _ _ hlen', maskApply_getD _ _ _ _ hlen,
    getD_map_bool _ _ _ Cell.na hi]
  cases hm : inRange r (ts.getD i Cell.na) with
  | false =>
    have hf : ¬((false : Bool) = true) := by simp
    simp only [hm, if_neg hf]
  | true =>
    have ht : (true : Bool) = true := rfl
    simp only [hm, if_pos ht]
    cases hc : p.2.getD i Cell.na <;> rfl

theorem manualFold_fst_getD (rows : List MRow) (ts : List Cell)
    (p : List Cell × List Cell) (i : Nat) (hi : i < ts.length)
    (hlen : i < p.1.length) :
    ((rows.foldl (fun q r => manualStep ts r q) p).1).getD i Cell.na =
      if rows.any (fun r => inRange r (ts.getD i Cell.na)) then Cell.num 1
      else p.1.getD i Cell.na := by
  induction rows generalizing p with
  | nil => simp
  | cons r rs ih =>
    have hlen' : i < (manualStep ts r p).1.length := by
      rw [manualStep_fst_length]
      exact hlen
    rw [List.foldl_cons, ih (manualStep ts r p) hlen',
      manualStep_fst_getD ts r p i hi hlen, List.any_cons]
    cases hr : inRange r (ts.getD i Cell.na) <;>
      cases h2 : rs.any (fun r => inRange r (ts.getD i Cell.na)) <;>
        simp [hr, h2]

theorem manualFold_snd_getD_unflagged (rows : List MRow) (ts : List Cell)
    (p : List Cell × List Cell) (i : Nat) (hi : i < ts.length)
    (hlen : i < p.2.length)
    (h : ∀ r ∈ rows, inRange r (ts.getD i Cell.na) = false) :
    ((rows.foldl (fun q r => manualStep ts r q) p).2).getD i Cell.na =
      p.2.getD i Cell.na := by
  induction rows generalizing p with
  | nil => simp
  | cons r rs ih =>
    have hlen' : i < (manualStep ts r p).2.length := by
      rw [manualStep_snd_length]
      exact hlen
    rw [List.foldl_cons,
      ih (manualStep ts r p) hlen' (fun r' hr' => h r' (List.mem_cons_of_mem _ hr')),
      manualStep_snd_getD ts r p i hi hlen, h r (List.mem_cons_self _ _)]
    simp

theorem manualFold_snd_getD_str (rows : List MRow) (ts : List Cell) (i : Nat)
    (hi : i < ts.length) :
    ∀ (p : List Cell × List Cell) (s : String), i < p.2.length →
      p.2.getD i Cell.na = Cell.str s →
      ∃ s', ((rows.foldl (fun q r => manualStep ts r q) p).2).getD i Cell.na = Cell.str s' ∧
        (∀ x, SubStr s x → SubStr s' x) ∧
        (∀ r ∈ rows, inRange r (ts.getD i Cell.na) = true → SubStr s' r.etype) := by
  induction rows with
  | nil =>
    intro p s hlen hs
    exact ⟨s, hs, fun x hx => hx, by simp⟩
  | cons r rs ih =>
    intro p s hlen hs
    have hlen' : i < (manualStep ts r p).2.length := by
      rw [manualStep_snd_length]
      exact hlen
    rw [List.foldl_cons]
    cases hr : inRange r (ts.getD i Cell.na) with
    | true =>
      have hs' : (manualStep ts r p).2.getD i Cell.na =
          Cell.str (s ++ ", " ++ r.etype) := by
        rw [manualStep_snd_getD ts r p i hi hlen, hr, hs]
        rfl
      obtain ⟨s', h1, h2, h3⟩ := ih (manualStep ts r p) (s ++ ", " ++ r.etype) hlen' hs'
      refine ⟨s', h1, ?_, ?_⟩
      · intro x hx
        exact h2 x ((hx.append_right ", ").append_right r.etype)
      · intro r' hr' hcov
        rcases List.mem_cons.mp hr' with h | h
        · subst h
          exact h2 r'.etype (SubStr_append_self (s ++ ", ") r'.etype)
        · exact h3 r' h hcov
    | false =>
      have hs' : (manualStep ts r p).2.getD i Cell.na = Cell.str s := by
        rw [manualStep_snd_getD ts r p i hi hlen, hr, hs]
        simp
      obtain ⟨s', h1, h2, h3⟩ := ih (manualStep ts r p) s hlen' hs'
      refine ⟨s', h1, h2, ?_⟩
      intro r' hr' hcov
      rcases List.mem_cons.mp hr' with h | h
      · subst h
        rw [hr] at hcov
        exact absurd hcov (by simp)
      · exact h3 r' h hcov

theorem manualFold_snd_getD_covered (rows : List MRow) (ts : List Cell) (i : Nat)
    (hi : i < ts.length) :
    ∀ (p : List Cell × List Cell), i < p.2.length →
      p.2.getD i Cell.na = Cell.na →
      (∃ r ∈ rows, inRange r (ts.getD i Cell.na) = true) →
      ∃ s', ((rows.foldl (fun q r => manualStep ts r q) p).2).getD i Cell.na = Cell.str s' ∧
        (∀ r ∈ rows, inRange r (ts.getD i Cell.na) = true → SubStr s' r.etype) := by
  induction rows with
  | nil =>
    intro p _ _ hcov
    simp at hcov
  | cons r rs ih =>
    intro p hlen hna hcov
    have hlen' : i < (manualStep ts r p).2.length := by
      rw [manualStep_snd_length]
      exact hlen
    rw [List.foldl_cons]
    cases hr : inRange r (ts.getD i Cell.na) with
    | true =>
      have hs' : (manualStep ts r p).2.getD i Cell.na =
          Cell.str (r.etype ++ ", " ++ r.etype) := by
        rw [manualStep_snd_getD ts r p i hi hlen, hr, hna]
        rfl
      obtain ⟨s', h1, h2, h3⟩ :=
        manualFold_snd_getD_str rs ts i hi (manualStep ts r p)
          (r.etype ++ ", " ++ r.etype) hlen' hs'
      refine ⟨s', h1, ?_⟩
      intro r' hr' hcov'
      rcases List.mem_cons.mp hr' with h | h
      · subst h
        exact h2 r'.etype (SubStr_append_self (r'.etype ++ ", ") r'.etype)
      · exact h3 r' h hcov'
    | false =>
      have hs' : (manualStep ts r p).2.getD i Cell.na = Cell.na := by
        rw [manualStep_snd_getD ts r p i hi hlen, hr, hna]
        simp
      have hcov' : ∃ r' ∈ rs, inRange r' (ts.getD i Cell.na) = true := by
        obtain ⟨r', hr', hc⟩ := hcov
        rcases List.mem_cons.mp hr' with h | h
        · subst h
          rw [hr] at hc
          exact absurd hc (by simp)
        · exact ⟨r', h, hc⟩
      obtain ⟨s', h1, h3⟩ := ih (manualStep ts r p) hlen' hs' hcov'
      refine ⟨s', h1, ?_⟩
      intro r' hr' hc
      rcases List.mem_cons.mp hr' with h | h
      · subst h
        rw [hr] at hc
        exact absurd hc (by simp)
      · exact h3 r' h hc

theorem autoMask_getD (delta nse : List Cell) (thr : ℚ) (i : Nat)
    (hi : i < nse.length) :
    (autoMask delta nse thr).getD i false =
      ((match delta.getD i Cell.na with
        | Cell.num d => decide (thr < d)
        | _ => false)
       && (nse.getD i Cell.na == Cell.num 0)) := by
  unfold autoMask
  rw [getD_eq_getElem?, List.getElem?_map, List.getElem?_range hi]
  rfl

theorem detectChan_findCol_typ (a : Table) (c : String) (thr : ℚ)
    (manual : Option (List MRow)) :
    (detectChan a c thr manual).findCol (c ++ "_NSE_Type") =
      some (detectFlags (a.getCol c) (a.getCol "TIMESTAMP") thr manual).2 := by
  simp only [detectChan]
  rw [findCol_setCol_self]

theorem detectChan_findCol_nse (a : Table) (c : String) (thr : ℚ)
    (manual : Option (List MRow)) :
    (detectChan a c thr manual).findCol (c ++ "_NSE") =
      some (detectFlags (a.getCol c) (a.getCol "TIMESTAMP") thr manual).1 := by
  simp only [detectChan]
  rw [findCol_setCol_ne _ _ _ _ (name_nse_ne_typ c c), findCol_setCol_self]

theorem detectChan_findCol_dmvv (a : Table) (c : String) (thr : ℚ)
    (manual : Option (List MRow)) :
    (detectChan a c thr manual).findCol (c ++ "_deltaMVV") =
      some (diffCells (a.getCol c)) := by
  simp only [detectChan]
  rw [findCol_setCol_ne _ _ _ _ (name_dmvv_ne_typ c c),
    findCol_setCol_ne _ _ _ _ (name_dmvv_ne_nse c c), findCol_setCol_self]

theorem detectChan_findCol_other (a : Table) (c : String) (thr : ℚ)
    (manual : Option (List MRow)) (n : String)
    (h1 : n ≠ c ++ "_deltaMVV") (h2 : n ≠ c ++ "_NSE")
    (h3 : n ≠ c ++ "_NSE_Type") :
    (detectChan a c thr manual).findCol n = a.findCol n := by
  simp only [detectChan]
  rw [findCol_setCol_ne _ _ _ _ h3, findCol_setCol_ne _ _ _ _ h2,
    findCol_setCol_ne _ _ _ _ h1]

theorem foldDetect_findCol_other (L : List String) (a : Table) (thr : ℚ)
    (manual : Option (List MRow)) (n : String)
    (h : ∀ c ∈ L, n ≠ c ++ "_deltaMVV" ∧ n ≠ c ++ "_NSE" ∧ n ≠ c ++ "_NSE_Type") :
    (L.foldl (fun t c => detectChan t c thr manual) a).findCol n = a.findCol n := by
  induction L generalizing a with
  | nil => rfl
  | cons c cs ih =>
    rw [List.foldl_cons, ih _ (fun c' hc' => h c' (List.mem_cons_of_mem _ hc'))]
    obtain ⟨h1, h2, h3⟩ := h c (List.mem_cons_self _ _)
    exact detectChan_findCol_other a c thr manual n h1 h2 h3

theorem detectChan_hasCol_mono (a : Table) (c : String) (thr : ℚ)
    (manual : Option (List MRow)) (m : String) (h : a.hasCol m = true) :
    (detectChan a c thr manual).hasCol m = true := by
  simp only [detectChan]
  apply (hasCol_iff_findCol _ _).mpr
  apply findCol_isSome_setCol
  apply findCol_isSome_setCol
  apply findCol_isSome_setCol
  exact (hasCol_iff_findCol _ _).mp h

theorem foldDetect_hasCol_mono (L : List String) (a : Table) (thr : ℚ)
    (manual : Option (List MRow)) (m : String) (h : a.hasCol m = true) :
    (L.foldl (fun t c => detectChan t c thr manual) a).hasCol m = true := by
  induction L generalizing a with
  | nil => exact h
  | cons c cs ih =>
    rw [List.foldl_cons]
    exact ih _ (detectChan_hasCol_mono a c thr manual m h)

theorem detectFlags_fst_length (base ts : List Cell) (thr : ℚ)
    (manual : Option (List MRow)) :
    (detectFlags base ts thr manual).1.length = base.length := by
  simp only [detectFlags]
  rw [maskApply_length]
  cases manual with
  | none => simp [detectState, List.length_replicate]
  | some rows =>
    simp only [detectState]
    rw [manualFold_fst_length]
    simp [List.length_replicate]

theorem detectFlags_snd_length (base ts : List Cell) (thr : ℚ)
    (manual : Option (List MRow)) :
    (detectFlags base ts thr manual).2.length = base.length := by
  simp only [detectFlags]
  rw [maskApply_length]
  cases manual with
  | none => simp [detectState, List.length_replicate]
  | some rows =>
    simp only [detectState]
    rw [manualFold_snd_length]
    simp [List.length_replicate]

theorem diffCells_length (l : List Cell) : (diffCells l).length = l.length :=
  mapIdxL_length _ _

theorem detectChan_uniform (a : Table) (c : String) (thr : ℚ)
    (manual : Option (List MRow)) (N : Nat)
    (hu : ∀ p ∈ a, p.2.length = N) (hc : a.hasCol c = true) :
    ∀ p ∈ detectChan a c thr manual, p.2.length = N := by
  have hbase : (a.getCol c).length = N := by
    obtain ⟨l, hl⟩ := (hasCol_iff_findCol a c).mp hc
    have := hu (c, l) (findCol_mem a c l hl)
    simpa [Table.getCol, hl] using this
  intro p hp
  simp only [detectChan] at hp
  rcases mem_setCol _ _ _ _ hp with h | h
  · rw [h]
    simp only
    rw [detectFlags_snd_length, hbase]
  · rcases mem_setCol _ _ _ _ h with h | h
    · rw [h]
      simp only
      rw [detectFlags_fst_length, hbase]
    · rcases mem_setCol _ _ _ _ h with h | h
      · rw [h]
        simp only
        rw [diffCells_length, hbase]
      · exact hu p h

theorem foldDetect_uniform (L : List String) (a : Table) (thr : ℚ)
    (manual : Option (List MRow)) (N : Nat)
    (hu : ∀ p ∈ a, p.2.length = N) (hsel : ∀ c ∈ L, a.hasCol c = true) :
    ∀ p ∈ L.foldl (fun t c => detectChan t c thr manual) a, p.2.length = N := by
  induction L generalizing a with
  | nil => exact hu
  | cons c cs ih =>
    rw [List.foldl_cons]
    exact ih _ (detectChan_uniform a c thr manual N hu (hsel c (List.mem_cons_self _ _)))
      (fun c' hc' => detectChan_hasCol_mono a c thr manual c'
        (hsel c' (List.mem_cons_of_mem _ hc')))

theorem name_nse_inj_ne {c c' : String} (h : c' ≠ c) :
    c ++ "_NSE" ≠ c' ++ "_NSE" :=
  fun he => h (str_append_right_cancel he).symm

theorem name_typ_inj_ne {c c' : String} (h : c' ≠ c) :
    c ++ "_NSE_Type" ≠ c' ++ "_NSE_Type" :=
  fun he => h (str_append_right_cancel he).symm

theorem name_dmvv_inj_ne {c c' : String} (h : c' ≠ c) :
    c ++ "_deltaMVV" ≠ c' ++ "_deltaMVV" :=
  fun he => h (str_append_right_cancel he).symm

theorem detectState_fst_length (ts : List Cell) (n : Nat)
    (manual : Option (List MRow)) : (detectState ts n manual).1.length = n := by
  cases manual with
  | none => simp [detectState]
  | some rows =>
    simp only [detectState]
    rw [manualFold_fst_length]
    simp

theorem detectState_snd_length (ts : List Cell) (n : Nat)
    (manual : Option (List MRow)) : (detectState ts n manual).2.length = n := by
  cases manual with
  | none => simp [detectState]
  | some rows =>
    simp only [detectState]
    rw [manualFold_snd_length]
    simp

/-- Decomposition of a selected-channel list around one selected channel,
with the non-duplication facts used by the per-channel theorems. -/
theorem selected_split {cols : List String} {c : String} (hc : c ∈ cols)
    (hnd : cols.Nodup) :
    ∃ l₁ l₂, cols = l₁ ++ c :: l₂ ∧ (∀ c' ∈ l₁, c' ≠ c) ∧ (∀ c' ∈ l₂, c' ≠ c) := by
  obtain ⟨l₁, l₂, hsplit⟩ := List.append_of_mem hc
  subst hsplit
  rw [List.nodup_append] at hnd
  obtain ⟨-, hnd2, hdisj⟩ := hnd
  refine ⟨l₁, l₂, rfl, ?_, ?_⟩
  · intro c' hc' he
    exact hdisj hc' (he ▸ List.mem_cons_self _ _)
  · intro c' hc' he
    exact (List.nodup_cons.mp hnd2).1 (he ▸ hc')

/-- The net effect of `detect_nse` on the three columns of one selected
channel: the first difference of the channel data as seen when the channel
is processed, and the `detectFlags` flag/type pair; later channels do not
disturb them. -/
theorem detect_channel_columns
    (df : Table) (possible : List String) (thr : ℚ) (manual : Option (List MRow))
    (c : String) (ts : List Cell)
    (hnd : (selectColumns df possible).Nodup)
    (hcp : c ∈ possible) (hcdf : df.hasCol c = true)
    (hts : df.findCol "TIMESTAMP" = some ts)
    (hu : ∀ p ∈ df, p.2.length = ts.length) :
    ∃ out base, detectNse df possible thr manual = Except.ok out ∧
      base.length = ts.length ∧
      out.findCol (c ++ "_deltaMVV") = some (diffCells base) ∧
      out.findCol (c ++ "_NSE") = some (detectFlags base ts thr manual).1 ∧
      out.findCol (c ++ "_NSE_Type") = some (detectFlags base ts thr manual).2 := by
  have hc : c ∈ selectColumns df possible := List.mem_filter.mpr ⟨hcp, hcdf⟩
  obtain ⟨l₁, l₂, hsplit, hne₁, hne₂⟩ := selected_split hc hnd
  have hsel : ∀ c' ∈ selectColumns df possible, df.hasCol c' = true :=
    fun c' h' => (List.mem_filter.mp h').2
  have hts₁ : (l₁.foldl (fun t c => detectChan t c thr manual) df).findCol
      "TIMESTAMP" = some ts := by
    rw [foldDetect_findCol_other l₁ df thr manual "TIMESTAMP"
      (fun c' _ => ⟨(name_dmvv_ne_ts c').symm, (name_nse_ne_ts c').symm,
        (name_typ_ne_ts c').symm⟩)]
    exact hts
  have htsget : (l₁.foldl (fun t c => detectChan t c thr manual) df).getCol
      "TIMESTAMP" = ts := by
    unfold Table.getCol
    rw [hts₁]
    rfl
  have hu₁ : ∀ p ∈ l₁.foldl (fun t c => detectChan t c thr manual) df,
      p.2.length = ts.length :=
    foldDetect_uniform l₁ df thr manual ts.length hu
      (fun c' h' => hsel c' (hsplit ▸ List.mem_append_left _ h'))
  have hhas₁ : (l₁.foldl (fun t c => detectChan t c thr manual) df).hasCol c
      = true :=
    foldDetect_hasCol_mono l₁ df thr manual c hcdf
  obtain ⟨bl, hbl⟩ := (hasCol_iff_findCol _ _).mp hhas₁
  have hblN : bl.length = ts.length := hu₁ (c, bl) (findCol_mem _ _ _ hbl)
  have hbase : (l₁.foldl (fun t c => detectChan t c thr manual) df).getCol c
      = bl := by
    unfold Table.getCol
    rw [hbl]
    rfl
  have hout : (selectColumns df possible).foldl
      (fun t c => detectChan t c thr manual) df =
      l₂.foldl (fun t c => detectChan t c thr manual)
        (detectChan (l₁.foldl (fun t c => detectChan t c thr manual) df)
          c thr manual) := by
    rw [hsplit, List.foldl_append, List.foldl_cons]
  refine ⟨(selectColumns df possible).foldl
    (fun t c => detectChan t c thr manual) df, bl, ?_, hblN, ?_, ?_, ?_⟩
  · unfold detectNse
    rw [if_neg]
    intro habs
    rw [List.isEmpty_iff] at habs
    rw [habs] at hc
    simp at hc
  · rw [hout, foldDetect_findCol_other l₂ _ thr manual _
      (fun c' hc' => ⟨name_dmvv_inj_ne (hne₂ c' hc'), name_dmvv_ne_nse c c',
        name_dmvv_ne_typ c c'⟩),
      detectChan_findCol_dmvv, hbase]
  · rw [hout, foldDetect_findCol_other l₂ _ thr manual _
      (fun c' hc' => ⟨(name_dmvv_ne_nse c' c).symm, name_nse_inj_ne (hne₂ c' hc'),
        name_nse_ne_typ c c'⟩),
      detectChan_findCol_nse, hbase, htsget]
  · rw [hout, foldDetect_findCol_other l₂ _ thr manual _
      (fun c' hc' => ⟨(name_dmvv_ne_typ c' c).symm, (name_nse_ne_typ c' c).symm,
        name_typ_inj_ne (hne₂ c' hc')⟩),
      detectChan_findCol_typ, hbase, htsget]

theorem detectFlags_fst_getD (base ts : List Cell) (thr : ℚ)
    (manual : Option (List MRow)) (i : Nat) (hi : i < base.length) :
    (detectFlags base ts thr manual).1.getD i Cell.na =
      if (autoMask (diffCells base) (detectState ts base.length manual).1 thr).getD i false
      then Cell.num 1
      else (detectState ts base.length manual).1.getD i Cell.na := by
  simp only [detectFlags]
  rw [maskApply_getD _ _ _ _ (by rw [detectState_fst_length]; exact hi)]

theorem detectFlags_snd_getD (base ts : List Cell) (thr : ℚ)
    (manual : Option (List MRow)) (i : Nat) (hi : i < base.length) :
    (detectFlags base ts thr manual).2.getD i Cell.na =
      if (autoMask (diffCells base) (detectState ts base.length manual).1 thr).getD i false
      then Cell.str "auto-detected"
      else (detectState ts base.length manual).2.getD i Cell.na := by
  simp only [detectFlags]
  rw [maskApply_getD _ _ _ _ (by rw [detectState_snd_length]; exact hi)]

/-- C4: for every row falling inside at least one manual interval, after
`detect_nse` the channel's `_NSE` flag is `1` regardless of the delta value
at that row, and `_NSE_Type` is a string containing every covering manual
label as a substring; the automatic pass never overwrites the manual flag
nor replaces the manual type with `"auto-detected"`. -/
theorem c4_manual_precedence
    (df : Table) (possible : List String) (thr : ℚ) (rows : List MRow)
    (c : String) (i : Nat) (ts : List Cell) (r : MRow)
    (hnd : (selectColumns df possible).Nodup)
    (hcp : c ∈ possible) (hcdf : df.hasCol c = true)
    (hts : df.findCol "TIMESTAMP" = some ts)
    (hu : ∀ p ∈ df, p.2.length = ts.length)
    (hi : i < ts.length)
    (hr : r ∈ rows)
    (hcov : inRange r (ts.getD i Cell.na) = true) :
    ∃ out, detectNse df possible thr (some rows) = Except.ok out ∧
      (out.getCol (c ++ "_NSE")).getD i Cell.na = Cell.num 1 ∧
      ∃ s, (out.getCol (c ++ "_NSE_Type")).getD i Cell.na = Cell.str s ∧
        ∀ r' ∈ rows, inRange r' (ts.getD i Cell.na) = true → SubStr s r'.etype := by
  obtain ⟨out, base, hok, hbN, _, hnse, htyp⟩ :=
    detect_channel_columns df possible thr (some rows) c ts hnd hcp hcdf hts hu
  have hi' : i < base.length := by rw [hbN]; exact hi
  have hst1 : (detectState ts base.length (some rows)).1.getD i Cell.na =
      Cell.num 1 := by
    simp only [detectState]
    rw [manualFold_fst_getD rows ts _ i hi (by simpa using hi'),
      if_pos (List.any_eq_true.mpr ⟨r, hr, hcov⟩)]
  have hmaskf : (autoMask (diffCells base)
      (detectState ts base.length (some rows)).1 thr).getD i false = false := by
    rw [autoMask_getD _ _ _ i (by rw [detectState_fst_length]; exact hi'), hst1]
    have hb : (Cell.num 1 == Cell.num 0) = false := by decide
    rw [hb, Bool.and_false]
  refine ⟨out, hok, ?_, ?_⟩
  · have hfl : (detectFlags base ts thr (some rows)).1.getD i Cell.na =
        Cell.num 1 := by
      rw [detectFlags_fst_getD base ts thr (some rows) i hi', hmaskf]
      simpa using hst1
    unfold Table.getCol
    rw [hnse]
    exact hfl
  · obtain ⟨s, hseq, hsubs⟩ :=
      manualFold_snd_getD_covered rows ts i hi
        (List.replicate base.length (Cell.num 0),
         List.replicate base.length Cell.na)
        (by simpa using hi') (replicate_getD _ _ _ _ hi') ⟨r, hr, hcov⟩
    refine ⟨s, ?_, hsubs⟩
    have hst2 : (detectState ts base.length (some rows)).2.getD i Cell.na =
        Cell.str s := by
      simp only [detectState]
      exact hseq
    have hfl : (detectFlags base ts thr (some rows)).2.getD i Cell.na =
        Cell.str s := by
      rw [detectFlags_snd_getD base ts thr (some rows) i hi', hmaskf]
      simpa using hst2
    unfold Table.getCol
    rw [htyp]
    exact hfl

theorem diffCells_getD_zero (l : List Cell) (h0 : 0 < l.length) :
    (diffCells l).getD 0 Cell.na = Cell.na := by
  unfold diffCells
  rw [mapIdxL_getD _ _ _ _ Cell.na h0]
  simp only [Nat.zero_sub]
  cases l.getD 0 Cell.na <;> rfl

/-- C5: a row untouched by the manual pass is auto-flagged
(`_NSE = 1`, `_NSE_Type = "auto-detected"`) exactly when its `_deltaMVV`
value is numeric and strictly above the threshold; a delta equal to the
threshold, or missing (in particular the first row's), leaves the flag `0`
and the type null. -/
theorem c5_auto_threshold_strict
    (df : Table) (possible : List String) (thr : ℚ)
    (manual : Option (List MRow)) (c : String) (i : Nat) (ts : List Cell)
    (hnd : (selectColumns df possible).Nodup)
    (hcp : c ∈ possible) (hcdf : df.hasCol c = true)
    (hts : df.findCol "TIMESTAMP" = some ts)
    (hu : ∀ p ∈ df, p.2.length = ts.length)
    (hi : i < ts.length)
    (hnocov : ∀ r ∈ manual.getD [], inRange r (ts.getD i Cell.na) = false) :
    ∃ out delta, detectNse df possible thr manual = Except.ok out ∧
      out.findCol (c ++ "_deltaMVV") = some delta ∧
      ((out.getCol (c ++ "_NSE")).getD i Cell.na = Cell.num 1 ↔
        ∃ d : ℚ, delta.getD i Cell.na = Cell.num d ∧ thr < d) ∧
      ((∃ d : ℚ, delta.getD i Cell.na = Cell.num d ∧ thr < d) →
        (out.getCol (c ++ "_NSE_Type")).getD i Cell.na =
          Cell.str "auto-detected") ∧
      ((¬∃ d : ℚ, delta.getD i Cell.na = Cell.num d ∧ thr < d) →
        (out.getCol (c ++ "_NSE")).getD i Cell.na = Cell.num 0 ∧
        (out.getCol (c ++ "_NSE_Type")).getD i Cell.na = Cell.na) ∧
      (i = 0 → delta.getD i Cell.na = Cell.na) := by
  obtain ⟨out, base, hok, hbN, hdm, hnse, htyp⟩ :=
    detect_channel_columns df possible thr manual c ts hnd hcp hcdf hts hu
  have hi' : i < base.length := by rw [hbN]; exact hi
  have hst1 : (detectState ts base.length manual).1.getD i Cell.na =
      Cell.num 0 := by
    cases manual with
    | none =>
      simp only [detectState]
      exact replicate_getD _ _ _ _ hi'
    | some rows =>
      simp only [detectState]
      rw [manualFold_fst_getD rows ts _ i hi (by simpa using hi'), if_neg]
      · exact replicate_getD _ _ _ _ hi'
      · intro habs
        obtain ⟨x, hx, hpx⟩ := List.any_eq_true.mp habs
        rw [hnocov x hx] at hpx
        exact absurd hpx (by simp)
  have hst2 : (detectState ts base.length manual).2.getD i Cell.na =
      Cell.na := by
    cases manual with
    | none =>
      simp only [detectState]
      exact replicate_getD _ _ _ _ hi'
    | some rows =>
      simp only [detectState]
      rw [manualFold_snd_getD_unflagged rows ts _ i hi (by simpa using hi')
        (fun r hr => hnocov r hr)]
      exact replicate_getD _ _ _ _ hi'
  have hmask : (autoMask (diffCells base)
      (detectState ts base.length manual).1 thr).getD i false =
      (match (diffCells base).getD i Cell.na with
       | Cell.num d => decide (thr < d)
       | _ => false) := by
    rw [autoMask_getD _ _ _ i (by rw [detectState_fst_length]; exact hi'), hst1]
    have hb : (Cell.num 0 == Cell.num 0) = true := by decide
    rw [hb, Bool.and_true]
  have hdcond : ((match (diffCells base).getD i Cell.na with
      | Cell.num d => decide (thr < d)
      | _ => false) = true) ↔
      ∃ d : ℚ, (diffCells base).getD i Cell.na = Cell.num d ∧ thr < d := by
    cases hg : (diffCells base).getD i Cell.na with
    | num q =>
      simp only [decide_eq_true_eq]
      constructor
      · intro h
        exact ⟨q, rfl, h⟩
      · intro ⟨d, hd, hth⟩
        cases hd
        exact hth
    | na =>
      simp
    | str s =>
      simp
  have hflag : (out.getCol (c ++ "_NSE")).getD i Cell.na =
      (if (match (diffCells base).getD i Cell.na with
       | Cell.num d => decide (thr < d)
       | _ => false) then Cell.num 1 else Cell.num 0) := by
    unfold Table.getCol
    rw [hnse]
    show (detectFlags base ts thr manual).1.getD i Cell.na = _
    rw [detectFlags_fst_getD base ts thr manual i hi', hmask, hst1]
  have htypv : (out.getCol (c ++ "_NSE_Type")).getD i Cell.na =
      (if (match (diffCells base).getD i Cell.na with
       | Cell.num d => decide (thr < d)
       | _ => false) then Cell.str "auto-detected" else Cell.na) := by
    unfold Table.getCol
    rw [htyp]
    show (detectFlags base ts thr manual).2.getD i Cell.na = _
    rw [detectFlags_snd_getD base ts thr manual i hi', hmask, hst2]
  refine ⟨out, diffCells base, hok, hdm, ?_, ?_, ?_, ?_⟩
  · rw [hflag]
    cases hb : (match (diffCells base).getD i Cell.na with
      | Cell.num d => decide (thr < d)
      | _ => false) with
    | true =>
      constructor
      · intro _
        exact hdcond.mp hb
      · intro _
        rfl
    | false =>
      constructor
      · intro habs
        exact absurd habs (by decide)
      · intro hex
        have hx := hdcond.mpr hex
        rw [hb] at hx
        exact absurd hx (by simp)
  · intro hex
    rw [htypv, if_pos (hdcond.mpr hex)]
  · intro hnex
    have hb : (match (diffCells base).getD i Cell.na with
      | Cell.num d => decide (thr < d)
      | _ => false) = false := by
      cases hb2 : (match (diffCells base).getD i Cell.na with
        | Cell.num d => decide (thr < d)
        | _ => false) with
      | true => exact absurd (hdcond.mp hb2) hnex
      | false => rfl
    constructor
    · rw [hflag, hb]
      simp
    · rw [htypv, hb]
      simp
  · intro h0
    subst h0
    exact diffCells_getD_zero base hi'


/-! ## Claim theorems: detector error handling and manual-pass evaluation -/

/-- A three-row test table with a `TIMESTAMP` column and one channel. -/
def tblManual : Table :=
  [("TIMESTAMP", [Cell.num 0, Cell.num 1, Cell.num 2]),
   ("X", [Cell.num 0, Cell.num 0, Cell.num 0])]

/-- C2: the claim says a row whose `_NSE_Type` is null and that falls inside
exactly one manual interval ends the manual pass with exactly that
interval's label.  The code sets the label where the type is null and then
immediately re-evaluates the null-mask and appends `", {label}"` to the very
rows it just set, so a row covered by a single manual interval ends with the
label duplicated (`"irrigation, irrigation"`), contradicting the code's own
comment that the append is only for rows already flagged. -/
theorem c2_manual_label_duplicated :
    ∃ out, detectNse tblManual ["X"] 1 (some [⟨1, 1, "irrigation"⟩]) =
        Except.ok out ∧
      out.findCol "X_NSE_Type" =
        some [Cell.na, Cell.str "irrigation, irrigation", Cell.na] ∧
      out.findCol "X_NSE" = some [Cell.num 0, Cell.num 1, Cell.num 0] ∧
      Cell.str "irrigation, irrigation" ≠ Cell.str "irrigation" := by
  refine ⟨_, rfl, ?_, ?_, ?_⟩
  · with_unfolding_all decide
  · with_unfolding_all decide
  · decide

/-- C9: `detect_nse` raises exactly when no candidate channel occurs among
the table's columns, and on that failing path the caller's table is the
unmodified input (the `ValueError` is raised by `_select_columns` before
any column is written). -/
theorem c9_detect_empty_intersection
    (df : Table) (possible : List String) (thr : ℚ)
    (manual : Option (List MRow)) :
    ((∃ e, detectNse df possible thr manual = Except.error e) ↔
      ∀ c ∈ possible, df.hasCol c = false) ∧
    (∀ e, detectNse df possible thr manual = Except.error e →
      detectNseSelf df possible thr manual = df) := by
  constructor
  · cases hsel : (selectColumns df possible).isEmpty with
    | true =>
      have hnil : selectColumns df possible = [] := List.isEmpty_iff.mp hsel
      refine iff_of_true
        ⟨"None of the expected columns for NSE detection were found.", ?_⟩ ?_
      · simp only [detectNse]
        rw [hsel]
        rfl
      · intro c hc
        have := List.filter_eq_nil.mp hnil c hc
        simpa using this
    | false =>
      refine iff_of_false ?_ ?_
      · rintro ⟨e, he⟩
        simp only [detectNse] at he
        rw [hsel] at he
        simp at he
      · intro hall
        have hnil : selectColumns df possible = [] := by
          unfold selectColumns
          rw [List.filter_eq_nil]
          intro c hc
          rw [hall c hc]
          simp
        rw [hnil] at hsel
        simp at hsel
  · intro e he
    unfold detectNseSelf
    rw [he]

/-- Witness for C9 at a concrete table and candidate list. -/
theorem c9_detect_empty_intersection_witness :
    (∃ e, detectNse [("A", [])] ["X"] 1 none = Except.error e) ∧
    detectNseSelf [("A", [])] ["X"] 1 none = [("A", [])] := by
  have h := c9_detect_empty_intersection [("A", [])] ["X"] 1 none
  have herr := h.1.mpr (by decide)
  refine ⟨herr, ?_⟩
  obtain ⟨e, he⟩ := herr
  exact h.2 e he

/-- A three-row table used as concrete witness input for the detector
theorems. -/
def tblDetect : Table :=
  [("TIMESTAMP", [Cell.num 0, Cell.num 1, Cell.num 2]),
   ("X", [Cell.num 0, Cell.num 5, Cell.num 5])]

/-- Witness for C4: a row covered by one manual interval, with the theorem
applied at a concrete table. -/
theorem c4_manual_precedence_witness :
    ∃ out, detectNse tblDetect ["X"] 1 (some [⟨1, 1, "irrigation"⟩]) =
        Except.ok out ∧
      (out.getCol ("X" ++ "_NSE")).getD 1 Cell.na = Cell.num 1 ∧
      ∃ s, (out.getCol ("X" ++ "_NSE_Type")).getD 1 Cell.na = Cell.str s ∧
        ∀ r' ∈ [(⟨1, 1, "irrigation"⟩ : MRow)],
          inRange r' ([Cell.num 0, Cell.num 1, Cell.num 2].getD 1 Cell.na) = true →
            SubStr s r'.etype :=
  c4_manual_precedence tblDetect ["X"] 1 [⟨1, 1, "irrigation"⟩] "X" 1
    [Cell.num 0, Cell.num 1, Cell.num 2] ⟨1, 1, "irrigation"⟩
    (by decide) (by decide) (by decide) (by decide) (by decide) (by decide)
    (by decide) (by with_unfolding_all decide)

/-- Witness for C5: no manual events, a delta of 5 above threshold 1 at row
1, applied at a concrete table. -/
theorem c5_auto_threshold_strict_witness :
    ∃ out delta, detectNse tblDetect ["X"] 1 none = Except.ok out ∧
      out.findCol ("X" ++ "_deltaMVV") = some delta ∧
      ((out.getCol ("X" ++ "_NSE")).getD 1 Cell.na = Cell.num 1 ↔
        ∃ d : ℚ, delta.getD 1 Cell.na = Cell.num d ∧ (1 : ℚ) < d) ∧
      ((∃ d : ℚ, delta.getD 1 Cell.na = Cell.num d ∧ (1 : ℚ) < d) →
        (out.getCol ("X" ++ "_NSE_Type")).getD 1 Cell.na =
          Cell.str "auto-detected") ∧
      ((¬∃ d : ℚ, delta.getD 1 Cell.na = Cell.num d ∧ (1 : ℚ) < d) →
        (out.getCol ("X" ++ "_NSE")).getD 1 Cell.na = Cell.num 0 ∧
        (out.getCol ("X" ++ "_NSE_Type")).getD 1 Cell.na = Cell.na) ∧
      ((1 : Nat) = 0 → delta.getD 1 Cell.na = Cell.na) :=
  c5_auto_threshold_strict tblDetect ["X"] 1 none "X" 1
    [Cell.num 0, Cell.num 1, Cell.num 2]
    (by decide) (by decide) (by decide) (by decide) (by decide) (by decide)
    (by decide)

/-! ## Claim theorems: calibration and aggregation -/

/-- C7: calibration resolution returns the fixed SL constant for the "SL"
preset; with no preset and a complete (alpha, beta) pair it returns
`alpha * (1/1000) * (1/beta) * 1000` (for alpha = 684.694 and beta = 9.181
this is 684694/9181 ≈ 74.57, within 0.01); with neither a preset nor a
complete pair it raises, with no silent default. -/
theorem c7_calibration_resolution :
    resolveCalibration (some "SL") none none = Except.ok (157.43 : ℚ) ∧
    (∀ a b : ℚ, resolveCalibration none (some a) (some b) =
      Except.ok (a * (1 / 1000) * (1 / b) * 1000)) ∧
    (684.694 * (1 / 1000) * (1 / (9.181 : ℚ)) * 1000 = 684694 / 9181) ∧
    |(684694 / 9181 : ℚ) - 74.57| < 1 / 100 ∧
    (∃ e, resolveCalibration none none none = Except.error e) := by
  refine ⟨rfl, fun a b => rfl, by norm_num, ?_, ⟨_, rfl⟩⟩
  rw [abs_lt]
  constructor <;> norm_num



/-- C8: once the native interval is determined (by inference or fallback
label), `aggregate_data` raises exactly when the native interval in minutes
exceeds the requested target interval in minutes (the target first being
normalized through the fallback dictionary), and proceeds otherwise. -/
theorem c8_aggregate_non_upsampling
    (inferred inputTimescale : Option String) (frequency detected : String)
    (hdet : aggDetect inferred inputTimescale = some detected) :
    ((∃ e, aggregateData inferred inputTimescale frequency = Except.error e) ↔
      convertToMinutes ((fallbackTimescale.lookup frequency).getD frequency) <
        convertToMinutes detected) ∧
    (convertToMinutes detected ≤
        convertToMinutes ((fallbackTimescale.lookup frequency).getD frequency) →
      aggregateData inferred inputTimescale frequency =
        Except.ok (detected, (fallbackTimescale.lookup frequency).getD frequency)) := by
  constructor
  · by_cases h : convertToMinutes ((fallbackTimescale.lookup frequency).getD
        frequency) < convertToMinutes detected
    · refine iff_of_true
        ⟨"Cannot aggregate to a smaller timescale than the input timescale.", ?_⟩ h
      simp only [aggregateData, hdet]
      rw [if_pos h]
    · refine iff_of_false ?_ h
      rintro ⟨e, he⟩
      simp only [aggregateData, hdet] at he
      rw [if_neg h] at he
      simp at he
  · intro hle
    simp only [aggregateData, hdet]
    rw [if_neg (by omega)]

/-- Witness for C8: a one-hour native interval and a 15-minute target is an
upsampling request and raises; the same native interval aggregated to daily
proceeds. -/
theorem c8_aggregate_non_upsampling_witness :
    (∃ e, aggregateData (some "1H") none "15T" = Except.error e) ∧
    aggregateData (some "1H") none "1D" = Except.ok ("1H", "1D") := by
  refine ⟨?_, ?_⟩
  · exact (c8_aggregate_non_upsampling (some "1H") none "15T" "1H" rfl).1.mpr
      (by with_unfolding_all decide)
  · exact (c8_aggregate_non_upsampling (some "1H") none "1D" "1H" rfl).2
      (by with_unfolding_all decide)

/-! ### Cumulative-sum lemmas -/

/-- Rational running sum starting from `acc` (specification-side mirror of
`cumsumGo` on fully numeric columns). -/
def ratCums (acc : ℚ) : List ℚ → List ℚ
  | [] => []
  | q :: qs => (acc + q) :: ratCums (acc + q) qs

theorem cumsumGo_map_num (acc : ℚ) (qs : List ℚ) :
    cumsumGo acc (qs.map Cell.num) = (ratCums acc qs).map Cell.num := by
  induction qs generalizing acc with
  | nil => rfl
  | cons q qs ih => simp [cumsumGo, ratCums, ih]

theorem ratCums_length (acc : ℚ) (qs : List ℚ) :
    (ratCums acc qs).length = qs.length := by
  induction qs generalizing acc with
  | nil => rfl
  | cons q qs ih => simp [ratCums, ih]

theorem ratCums_getD_zero (acc : ℚ) (qs : List ℚ) (h : 0 < qs.length) :
    (ratCums acc qs).getD 0 0 = acc + qs.getD 0 0 := by
  cases qs with
  | nil => simp at h
  | cons q qs => rfl

theorem ratCums_getD_succ (acc : ℚ) (qs : List ℚ) (i : Nat)
    (hi : i + 1 < qs.length) :
    (ratCums acc qs).getD (i + 1) 0 =
      (ratCums acc qs).getD i 0 + qs.getD (i + 1) 0 := by
  induction qs generalizing acc i with
  | nil => simp at hi
  | cons q qs ih =>
    cases i with
    | zero =>
      cases qs with
      | nil => simp at hi
      | cons q' qs' => simp [ratCums]
    | succ j =>
      have := ih (acc + q) j (by simpa using hi)
      simpa [ratCums] using this

/-- One step of the `_calculate_cumulative_eta` loop. -/
def cumStep (acc : Table) (col : String) : Table :=
  if strContains col "_ETa" && !strContains col "_Cumulative_ETa" then
    acc.setCol (col.replace "_ETa" "_Cumulative_ETa")
      (cumsumCells (acc.getCol col))
  else acc

theorem calculateCumulativeEta_eq_fold (a : Table) :
    calculateCumulativeEta a = (a.colNames).foldl cumStep a := rfl

theorem cumStep_findCol_other (t : Table) (col n : String)
    (h : (strContains col "_ETa" && !strContains col "_Cumulative_ETa") = true →
      col.replace "_ETa" "_Cumulative_ETa" ≠ n) :
    (cumStep t col).findCol n = t.findCol n := by
  unfold cumStep
  by_cases hP : (strContains col "_ETa" && !strContains col "_Cumulative_ETa") = true
  · rw [if_pos hP, findCol_setCol_ne _ _ _ _ (fun he => h hP he.symm)]
  · rw [if_neg hP]

theorem cumFold_findCol_other (L : List String) (t : Table) (n : String)
    (h : ∀ m ∈ L,
      (strContains m "_ETa" && !strContains m "_Cumulative_ETa") = true →
      m.replace "_ETa" "_Cumulative_ETa" ≠ n) :
    (L.foldl cumStep t).findCol n = t.findCol n := by
  induction L generalizing t with
  | nil => rfl
  | cons m ms ih =>
    rw [List.foldl_cons, ih _ (fun m' hm' => h m' (List.mem_cons_of_mem _ hm')),
      cumStep_findCol_other t m n (h m (List.mem_cons_self _ _))]

theorem getCol_eq_of_findCol (t : Table) (n : String) (l : List Cell)
    (h : t.findCol n = some l) : t.getCol n = l := by
  unfold Table.getCol
  rw [h]
  rfl

theorem colNames_mem_of_findCol (t : Table) (n : String) (l : List Cell)
    (h : t.findCol n = some l) : n ∈ t.colNames := by
  have := findCol_mem t n l h
  exact List.mem_map.mpr ⟨(n, l), this, rfl⟩

/-- The cumulative pass stores `cumsum` of each qualifying column under its
replaced name, and leaves the source column intact, provided no other
qualifying column's write collides with either name. -/
theorem calculateCumulativeEta_col (a : Table) (ec : String) (l : List Cell)
    (hfind : a.findCol ec = some l)
    (hP : strContains ec "_ETa" = true)
    (hnP : strContains ec "_Cumulative_ETa" = false)
    (hg : ec.replace "_ETa" "_Cumulative_ETa" ≠ ec)
    (hnd : a.colNames.Nodup)
    (hother : ∀ m ∈ a.colNames, m ≠ ec →
      strContains m "_ETa" = true → strContains m "_Cumulative_ETa" = false →
      m.replace "_ETa" "_Cumulative_ETa" ≠ ec ∧
      m.replace "_ETa" "_Cumulative_ETa" ≠ ec.replace "_ETa" "_Cumulative_ETa") :
    (calculateCumulativeEta a).findCol (ec.replace "_ETa" "_Cumulative_ETa") =
      some (cumsumCells l) ∧
    (calculateCumulativeEta a).findCol ec = some l := by
  have hmem : ec ∈ a.colNames := colNames_mem_of_findCol a ec l hfind
  obtain ⟨l₁, l₂, hsplit, hne₁, hne₂⟩ := selected_split hmem hnd
  have hsub₁ : ∀ m ∈ l₁, m ∈ a.colNames := fun m hm =>
    hsplit ▸ List.mem_append_left _ hm
  have hsub₂ : ∀ m ∈ l₂, m ∈ a.colNames := fun m hm =>
    hsplit ▸ List.mem_append_right _ (List.mem_cons_of_mem _ hm)
  have hPb : (strContains ec "_ETa" && !strContains ec "_Cumulative_ETa") = true := by
    rw [hP, hnP]
    rfl
  have hoth' : ∀ m, m ∈ a.colNames → m ≠ ec →
      (strContains m "_ETa" && !strContains m "_Cumulative_ETa") = true →
      m.replace "_ETa" "_Cumulative_ETa" ≠ ec ∧
      m.replace "_ETa" "_Cumulative_ETa" ≠ ec.replace "_ETa" "_Cumulative_ETa" := by
    intro m hm hne hPm
    rw [Bool.and_eq_true, Bool.not_eq_true'] at hPm
    exact hother m hm hne hPm.1 hPm.2
  rw [calculateCumulativeEta_eq_fold, hsplit, List.foldl_append, List.foldl_cons]
  have h₁ec : (l₁.foldl cumStep a).findCol ec = some l := by
    rw [cumFold_findCol_other l₁ a ec
      (fun m hm hPm => (hoth' m (hsub₁ m hm) (hne₁ m hm) hPm).1)]
    exact hfind
  have hstep : cumStep (l₁.foldl cumStep a) ec =
      (l₁.foldl cumStep a).setCol (ec.replace "_ETa" "_Cumulative_ETa")
        (cumsumCells l) := by
    rw [cumStep, if_pos hPb, getCol_eq_of_findCol _ _ _ h₁ec]
  constructor
  · rw [cumFold_findCol_other l₂ _ _
      (fun m hm hPm => (hoth' m (hsub₂ m hm) (hne₂ m hm) hPm).2), hstep,
      findCol_setCol_self]
  · rw [cumFold_findCol_other l₂ _ _
      (fun m hm hPm => (hoth' m (hsub₂ m hm) (hne₂ m hm) hPm).1), hstep,
      findCol_setCol_ne _ _ _ _ hg.symm]
    exact h₁ec

/-- C6: after `calculate_eta`, a channel's cumulative column is the running
sum of its (fully numeric) ETa column: `C_Cumulative_ETa[0] = C_ETa[0]` and
`C_Cumulative_ETa[i] = C_Cumulative_ETa[i-1] + C_ETa[i]` for `i > 0`.  The
collision hypotheses say the column names follow the naming scheme (no
other `_ETa` column's cumulative name hits this channel's columns). -/
theorem c6_cumulative_recurrence
    (t : Table) (f : ℚ) (ec : String) (qs : List ℚ)
    (hl : (calcEtaLoop t f).findCol ec = some (qs.map Cell.num))
    (hP : strContains ec "_ETa" = true)
    (hnP : strContains ec "_Cumulative_ETa" = false)
    (hg : ec.replace "_ETa" "_Cumulative_ETa" ≠ ec)
    (hnd : (calcEtaLoop t f).colNames.Nodup)
    (hother : ∀ m ∈ (calcEtaLoop t f).colNames, m ≠ ec →
      strContains m "_ETa" = true → strContains m "_Cumulative_ETa" = false →
      m.replace "_ETa" "_Cumulative_ETa" ≠ ec ∧
      m.replace "_ETa" "_Cumulative_ETa" ≠ ec.replace "_ETa" "_Cumulative_ETa") :
    ∃ cs : List ℚ,
      (calculateEta t f).findCol (ec.replace "_ETa" "_Cumulative_ETa") =
        some (cs.map Cell.num) ∧
      (calculateEta t f).findCol ec = some (qs.map Cell.num) ∧
      cs.length = qs.length ∧
      (0 < qs.length → cs.getD 0 0 = qs.getD 0 0) ∧
      (∀ i, i + 1 < qs.length →
        cs.getD (i + 1) 0 = cs.getD i 0 + qs.getD (i + 1) 0) := by
  obtain ⟨h1, h2⟩ := calculateCumulativeEta_col (calcEtaLoop t f) ec
    (qs.map Cell.num) hl hP hnP hg hnd hother
  refine ⟨ratCums 0 qs, ?_, h2, ratCums_length 0 qs, ?_, ?_⟩
  · show (calculateCumulativeEta (calcEtaLoop t f)).findCol _ = _
    rw [h1]
    unfold cumsumCells
    rw [cumsumGo_map_num]
  · intro h0
    rw [ratCums_getD_zero 0 qs h0, zero_add]
  · intro i hi
    exact ratCums_getD_succ 0 qs i hi

/-- C10: after `calculate_eta`, cumulative integration is applied to every
column whose name contains `"_ETa"` (and not `"_Cumulative_ETa"`), so the
table also contains `C_Cumulative_ETa_Raw`, equal to the running sum of the
pre-cleanup `C_ETa_Raw` series. -/
theorem c10_cumulative_eta_raw
    (t : Table) (f : ℚ) (c : String) (rv : List Cell)
    (hl : (calcEtaLoop t f).findCol (c ++ "_ETa_Raw") = some rv)
    (hrep : (c ++ "_ETa_Raw").replace "_ETa" "_Cumulative_ETa" =
      c ++ "_Cumulative_ETa_Raw")
    (hP : strContains (c ++ "_ETa_Raw") "_ETa" = true)
    (hnP : strContains (c ++ "_ETa_Raw") "_Cumulative_ETa" = false)
    (hg : c ++ "_Cumulative_ETa_Raw" ≠ c ++ "_ETa_Raw")
    (hnd : (calcEtaLoop t f).colNames.Nodup)
    (hother : ∀ m ∈ (calcEtaLoop t f).colNames, m ≠ c ++ "_ETa_Raw" →
      strContains m "_ETa" = true → strContains m "_Cumulative_ETa" = false →
      m.replace "_ETa" "_Cumulative_ETa" ≠ c ++ "_ETa_Raw" ∧
      m.replace "_ETa" "_Cumulative_ETa" ≠ c ++ "_Cumulative_ETa_Raw") :
    (calculateEta t f).findCol (c ++ "_Cumulative_ETa_Raw") =
      some (cumsumCells rv) ∧
    (calculateEta t f).findCol (c ++ "_ETa_Raw") = some rv := by
  have hother' : ∀ m ∈ (calcEtaLoop t f).colNames, m ≠ c ++ "_ETa_Raw" →
      strContains m "_ETa" = true → strContains m "_Cumulative_ETa" = false →
      m.replace "_ETa" "_Cumulative_ETa" ≠ c ++ "_ETa_Raw" ∧
      m.replace "_ETa" "_Cumulative_ETa" ≠
        (c ++ "_ETa_Raw").replace "_ETa" "_Cumulative_ETa" := by
    intro m hm hne hc1 hc2
    rw [hrep]
    exact hother m hm hne hc1 hc2
  obtain ⟨h1, h2⟩ := calculateCumulativeEta_col (calcEtaLoop t f)
    (c ++ "_ETa_Raw") rv hl hP hnP (hrep ▸ hg) hnd hother'
  rw [hrep] at h1
  exact ⟨h1, h2⟩

/-- A two-row single-channel table used as concrete witness input for the
water-balance theorems. -/
def tblEta : Table :=
  [("TIMESTAMP", [Cell.num 0, Cell.num 1]),
   ("X_deltaMVV", [Cell.num 1, Cell.num 2])]

set_option maxRecDepth 4000 in
/-- Witness for C6 on a concrete two-row channel whose reconstructed ETa
series is `[-1, -2]`. -/
theorem c6_cumulative_recurrence_witness :
    ∃ cs : List ℚ,
      (calculateEta tblEta 1).findCol ("X_ETa".replace "_ETa" "_Cumulative_ETa") =
        some (cs.map Cell.num) ∧
      (calculateEta tblEta 1).findCol "X_ETa" =
        some (([-1, -2] : List ℚ).map Cell.num) ∧
      cs.length = ([-1, -2] : List ℚ).length ∧
      (0 < ([-1, -2] : List ℚ).length →
        cs.getD 0 0 = ([-1, -2] : List ℚ).getD 0 0) ∧
      (∀ i, i + 1 < ([-1, -2] : List ℚ).length →
        cs.getD (i + 1) 0 = cs.getD i 0 + ([-1, -2] : List ℚ).getD (i + 1) 0) :=
  c6_cumulative_recurrence tblEta 1 "X_ETa" [-1, -2]
    (by with_unfolding_all decide) (by with_unfolding_all decide)
    (by with_unfolding_all decide) (by with_unfolding_all decide)
    (by with_unfolding_all decide) (by with_unfolding_all decide)

set_option maxRecDepth 4000 in
/-- Witness for C10 on the same concrete channel: the cumulative of the raw
ETa series is also produced. -/
theorem c10_cumulative_eta_raw_witness :
    (calculateEta tblEta 1).findCol ("X" ++ "_Cumulative_ETa_Raw") =
      some (cumsumCells [Cell.num (-1), Cell.num (-2)]) ∧
    (calculateEta tblEta 1).findCol ("X" ++ "_ETa_Raw") =
      some [Cell.num (-1), Cell.num (-2)] :=
  c10_cumulative_eta_raw tblEta 1 "X" [Cell.num (-1), Cell.num (-2)]
    (by with_unfolding_all decide) (by with_unfolding_all decide)
    (by with_unfolding_all decide) (by with_unfolding_all decide)
    (by with_unfolding_all decide) (by with_unfolding_all decide)
    (by with_unfolding_all decide)

/-! ### Per-channel lemmas for `calculate_eta` -/

theorem interpolateNseEta_findCol_other (a : Table) (dwc n : String)
    (h : n ≠ dwc.replace "_deltaMM" "_ETa_Raw") :
    (interpolateNseEta a dwc).findCol n = a.findCol n := by
  cases hm : a.findCol (dwc.replace "_deltaMM" "_NSE") with
  | none => simp [interpolateNseEta, hm]
  | some nsev =>
    simp only [interpolateNseEta, hm]
    by_cases hany : (nsev.map (fun c => c == Cell.num 1)).any (fun b => b) = true
    · rw [if_pos hany, findCol_setCol_ne _ _ _ _ h]
    · rw [if_neg hany]

/-- The NSE-interpolation adjustment of the raw depth column, as a pure
function of the depth values and the (optional) NSE column. -/
def nseAdjust (dmv : List Cell) (nseOpt : Option (List Cell)) : List Cell :=
  match nseOpt with
  | none => dmv
  | some nsev =>
    let mask := nsev.map (fun c => c == Cell.num 1)
    if mask.any (fun b => b) then
      bfill (ffill (interpLinearBoth (maskToNa mask dmv)))
    else dmv

theorem interpolateNoisyEta_findCol_other (a : Table) (ecr : String) (thr : ℚ)
    (n : String) (h1 : n ≠ ecr.replace "_ETa_Raw" "_Noisy_Flag")
    (h2 : n ≠ ecr.replace "_ETa_Raw" "_ETa") :
    (interpolateNoisyEta a ecr thr).findCol n = a.findCol n := by
  cases hm : a.findCol ecr with
  | none => simp [interpolateNoisyEta, hm]
  | some x =>
    simp only [interpolateNoisyEta, hm]
    rw [findCol_setCol_ne _ _ _ _ h2, findCol_setCol_ne _ _ _ _ h1]

theorem processChan_findCol_other (a : Table) (f : ℚ) (col n : String)
    (h1 : n ≠ chanDwc col) (h2 : n ≠ chanEcr col) (h3 : n ≠ chanEta col)
    (h4 : n ≠ chanNfc col) :
    (processChan a f col).findCol n = a.findCol n := by
  simp only [processChan]
  rw [interpolateNoisyEta_findCol_other _ _ _ _ h4 h3,
    findCol_setCol_ne _ _ _ _ h3, interpolateNseEta_findCol_other _ _ _ h2,
    findCol_setCol_ne _ _ _ _ h2, findCol_setCol_ne _ _ _ _ h1]

theorem foldProcess_findCol_other (L : List String) (a : Table) (f : ℚ)
    (n : String)
    (h : ∀ col' ∈ L, n ≠ chanDwc col' ∧ n ≠ chanEcr col' ∧ n ≠ chanEta col' ∧
      n ≠ chanNfc col') :
    (L.foldl (fun t c => processChan t f c) a).findCol n = a.findCol n := by
  induction L generalizing a with
  | nil => rfl
  | cons c cs ih =>
    rw [List.foldl_cons, ih _ (fun c' hc' => h c' (List.mem_cons_of_mem _ hc'))]
    obtain ⟨h1, h2, h3, h4⟩ := h c (List.mem_cons_self _ _)
    exact processChan_findCol_other a f c n h1 h2 h3 h4

/-- The `_deltaMM` and `_ETa_Raw` columns produced by one channel's pass of
`calculate_eta`, in terms of the channel data and NSE column it reads. -/
theorem processChan_cols (a : Table) (f : ℚ) (col : String)
    (d1 : chanEcr col ≠ chanDwc col)
    (d2 : chanNse col ≠ chanDwc col) (d3 : chanNse col ≠ chanEcr col)
    (d4 : chanEta col ≠ chanEcr col) (d5 : chanNfc col ≠ chanEcr col)
    (d6 : chanNfc col ≠ chanDwc col) (d7 : chanEta col ≠ chanDwc col) :
    (processChan a f col).findCol (chanDwc col) =
      some ((a.getCol col).map (cellTimesNegFactor f)) ∧
    (processChan a f col).findCol (chanEcr col) =
      some (nseAdjust ((a.getCol col).map (cellTimesNegFactor f))
        (a.findCol (chanNse col))) := by
  simp only [processChan]
  set dmv := (a.getCol col).map (cellTimesNegFactor f) with hdmv
  set a₁ := a.setCol (chanDwc col) dmv with ha₁
  have h₁dwc : a₁.findCol (chanDwc col) = some dmv := findCol_setCol_self _ _ _
  have h₁get : a₁.getCol (chanDwc col) = dmv := getCol_eq_of_findCol _ _ _ h₁dwc
  rw [h₁get]
  set a₂ := a₁.setCol (chanEcr col) dmv with ha₂
  have h₂dwc : a₂.findCol (chanDwc col) = some dmv := by
    rw [ha₂, findCol_setCol_ne _ _ _ _ d1.symm]
    exact h₁dwc
  have h₂get : a₂.getCol (chanDwc col) = dmv := getCol_eq_of_findCol _ _ _ h₂dwc
  have h₂ecr : a₂.findCol (chanEcr col) = some dmv := findCol_setCol_self _ _ _
  have h₂nse : a₂.findCol (chanNse col) = a.findCol (chanNse col) := by
    rw [ha₂, findCol_setCol_ne _ _ _ _ d3, ha₁, findCol_setCol_ne _ _ _ _ d2]
  set a₃ := interpolateNseEta a₂ (chanDwc col) with ha₃
  have h₃dwc : a₃.findCol (chanDwc col) = some dmv := by
    rw [ha₃, interpolateNseEta_findCol_other _ _ _ d1.symm]
    exact h₂dwc
  have h₃ecr : a₃.findCol (chanEcr col) =
      some (nseAdjust dmv (a.findCol (chanNse col))) := by
    rw [ha₃]
    cases hm : a₂.findCol ((chanDwc col).replace "_deltaMM" "_NSE") with
    | none =>
      have hm' : a.findCol (chanNse col) = none := by
        rw [← h₂nse]
        exact hm
      simp only [interpolateNseEta, hm, hm', nseAdjust]
      exact h₂ecr
    | some nsev =>
      have hm' : a.findCol (chanNse col) = some nsev := by
        rw [← h₂nse]
        exact hm
      simp only [interpolateNseEta, hm, hm', nseAdjust]
      by_cases hany : ((nsev.map (fun c => c == Cell.num 1)).any (fun b => b)) = true
      · rw [if_pos hany, if_pos hany, h₂get,
          show (chanDwc col).replace "_deltaMM" "_ETa_Raw" = chanEcr col from rfl,
          findCol_setCol_self]
      · rw [if_neg hany, if_neg hany]
        exact h₂ecr
  set a₄ := a₃.setCol (chanEta col) (a₃.getCol (chanEcr col)) with ha₄
  have h₄dwc : a₄.findCol (chanDwc col) = some dmv := by
    rw [ha₄, findCol_setCol_ne _ _ _ _ d7.symm]
    exact h₃dwc
  have h₄ecr : a₄.findCol (chanEcr col) =
      some (nseAdjust dmv (a.findCol (chanNse col))) := by
    rw [ha₄, findCol_setCol_ne _ _ _ _ d4.symm]
    exact h₃ecr
  constructor
  · rw [interpolateNoisyEta_findCol_other _ _ _ _ d6.symm d7.symm]
    exact h₄dwc
  · rw [interpolateNoisyEta_findCol_other _ _ _ _ d5.symm d4.symm]
    exact h₄ecr

/-- The `_deltaMM` and `_ETa_Raw` columns of one channel after the whole
channel loop of `calculate_eta`: other channels' writes do not disturb them
under the stated name-disjointness. -/
theorem calcEtaLoop_channel (t : Table) (f : ℚ) (col : String)
    (hmem : col ∈ (t.colNames).filter (fun c => strContains c "_deltaMVV"))
    (hnd : ((t.colNames).filter (fun c => strContains c "_deltaMVV")).Nodup)
    (hdisj : ∀ col' ∈ (t.colNames).filter (fun c => strContains c "_deltaMVV"),
      col' ≠ col →
      (col ≠ chanDwc col' ∧ col ≠ chanEcr col' ∧ col ≠ chanEta col' ∧
        col ≠ chanNfc col') ∧
      (chanDwc col ≠ chanDwc col' ∧ chanDwc col ≠ chanEcr col' ∧
        chanDwc col ≠ chanEta col' ∧ chanDwc col ≠ chanNfc col') ∧
      (chanEcr col ≠ chanDwc col' ∧ chanEcr col ≠ chanEcr col' ∧
        chanEcr col ≠ chanEta col' ∧ chanEcr col ≠ chanNfc col') ∧
      (chanNse col ≠ chanDwc col' ∧ chanNse col ≠ chanEcr col' ∧
        chanNse col ≠ chanEta col' ∧ chanNse col ≠ chanNfc col'))
    (d1 : chanEcr col ≠ chanDwc col)
    (d2 : chanNse col ≠ chanDwc col) (d3 : chanNse col ≠ chanEcr col)
    (d4 : chanEta col ≠ chanEcr col) (d5 : chanNfc col ≠ chanEcr col)
    (d6 : chanNfc col ≠ chanDwc col) (d7 : chanEta col ≠ chanDwc col) :
    (calcEtaLoop t f).findCol (chanDwc col) =
      some ((t.getCol col).map (cellTimesNegFactor f)) ∧
    (calcEtaLoop t f).findCol (chanEcr col) =
      some (nseAdjust ((t.getCol col).map (cellTimesNegFactor f))
        (t.findCol (chanNse col))) := by
  obtain ⟨l₁, l₂, hsplit, hne₁, hne₂⟩ := selected_split hmem hnd
  have hmem₁ : ∀ c' ∈ l₁, c' ∈ (t.colNames).filter
      (fun c => strContains c "_deltaMVV") :=
    fun c' hc' => hsplit ▸ List.mem_append_left _ hc'
  have hmem₂ : ∀ c' ∈ l₂, c' ∈ (t.colNames).filter
      (fun c => strContains c "_deltaMVV") :=
    fun c' hc' => hsplit ▸ List.mem_append_right _ (List.mem_cons_of_mem _ hc')
  have hfold : calcEtaLoop t f =
      l₂.foldl (fun a c => processChan a f c)
        (processChan (l₁.foldl (fun a c => processChan a f c) t) f col) := by
    simp only [calcEtaLoop]
    rw [hsplit, List.foldl_append, List.foldl_cons]
  have ha₁col : (l₁.foldl (fun a c => processChan a f c) t).findCol col =
      t.findCol col :=
    foldProcess_findCol_other l₁ t f col
      (fun c' hc' => (hdisj c' (hmem₁ c' hc') (hne₁ c' hc')).1)
  have ha₁get : (l₁.foldl (fun a c => processChan a f c) t).getCol col =
      t.getCol col := by
    unfold Table.getCol
    rw [ha₁col]
  have ha₁nse : (l₁.foldl (fun a c => processChan a f c) t).findCol
      (chanNse col) = t.findCol (chanNse col) :=
    foldProcess_findCol_other l₁ t f (chanNse col)
      (fun c' hc' => (hdisj c' (hmem₁ c' hc') (hne₁ c' hc')).2.2.2)
  obtain ⟨hdwc, hecr⟩ :=
    processChan_cols (l₁.foldl (fun a c => processChan a f c) t) f col
      d1 d2 d3 d4 d5 d6 d7
  rw [ha₁get] at hdwc hecr
  rw [ha₁nse] at hecr
  constructor
  · rw [hfold, foldProcess_findCol_other l₂ _ f _
      (fun c' hc' => (hdisj c' (hmem₂ c' hc') (hne₂ c' hc')).2.1)]
    exact hdwc
  · rw [hfold, foldProcess_findCol_other l₂ _ f _
      (fun c' hc' => (hdisj c' (hmem₂ c' hc') (hne₂ c' hc')).2.2.1)]
    exact hecr

/-- A three-row channel with one NSE-flagged row, as produced by the
detection stage. -/
def tblNse : Table :=
  [("TIMESTAMP", [Cell.num 0, Cell.num 1, Cell.num 2]),
   ("X_deltaMVV", [Cell.na, Cell.num 1, Cell.num 2]),
   ("X_NSE", [Cell.num 0, Cell.num 1, Cell.num 0]),
   ("X_NSE_Type", [Cell.na, Cell.str "irrigation", Cell.na])]

set_option maxRecDepth 8000 in
/-- C1 counterexample: after `calculate_eta` on a channel with one
NSE-flagged row, `X_ETa_Raw` holds the NSE-interpolated series, not the
unmasked `X_deltaMM` baseline the claim asserts: at row 1 the audit column
is -2 while the depth delta is -1.  (`_interpolate_nse_eta` writes its
interpolation result back into the `_ETa_Raw` column itself,
water_balance.py lines 119-129.) -/
theorem c1_eta_raw_retained_counterexample :
    ((calculateEta tblNse 1).getCol "X_ETa_Raw").getD 1 Cell.na =
      Cell.num (-2) ∧
    ((calculateEta tblNse 1).getCol "X_deltaMM").getD 1 Cell.na =
      Cell.num (-1) ∧
    Cell.num (-2) ≠ Cell.num (-1) := by
  refine ⟨?_, ?_, ?_⟩ <;> with_unfolding_all decide

/-- C1 (amended): after `calculate_eta`, for a channel whose NSE column is
absent or has no flagged row, the audit column `C_ETa_Raw` equals
`C_deltaMM` (both being the sign-inverted calibrated deltas); the
noise-interpolation step never modifies `C_ETa_Raw`.  When NSE rows exist,
`C_ETa_Raw` is rewritten in place by the NSE interpolation (see the
counterexample). -/
theorem c1_eta_raw_equals_delta_no_nse
    (t : Table) (f : ℚ) (col : String)
    (hmem : col ∈ (t.colNames).filter (fun c => strContains c "_deltaMVV"))
    (hnd : ((t.colNames).filter (fun c => strContains c "_deltaMVV")).Nodup)
    (hdisj : ∀ col' ∈ (t.colNames).filter (fun c => strContains c "_deltaMVV"),
      col' ≠ col →
      (col ≠ chanDwc col' ∧ col ≠ chanEcr col' ∧ col ≠ chanEta col' ∧
        col ≠ chanNfc col') ∧
      (chanDwc col ≠ chanDwc col' ∧ chanDwc col ≠ chanEcr col' ∧
        chanDwc col ≠ chanEta col' ∧ chanDwc col ≠ chanNfc col') ∧
      (chanEcr col ≠ chanDwc col' ∧ chanEcr col ≠ chanEcr col' ∧
        chanEcr col ≠ chanEta col' ∧ chanEcr col ≠ chanNfc col') ∧
      (chanNse col ≠ chanDwc col' ∧ chanNse col ≠ chanEcr col' ∧
        chanNse col ≠ chanEta col' ∧ chanNse col ≠ chanNfc col'))
    (d1 : chanEcr col ≠ chanDwc col)
    (d2 : chanNse col ≠ chanDwc col) (d3 : chanNse col ≠ chanEcr col)
    (d4 : chanEta col ≠ chanEcr col) (d5 : chanNfc col ≠ chanEcr col)
    (d6 : chanNfc col ≠ chanDwc col) (d7 : chanEta col ≠ chanDwc col)
    (hnse : match t.findCol (chanNse col) with
      | none => True
      | some l => Cell.num 1 ∉ l)
    (hcum : ∀ m ∈ (calcEtaLoop t f).colNames,
      strContains m "_ETa" = true → strContains m "_Cumulative_ETa" = false →
      m.replace "_ETa" "_Cumulative_ETa" ≠ chanDwc col ∧
      m.replace "_ETa" "_Cumulative_ETa" ≠ chanEcr col) :
    (calculateEta t f).findCol (chanEcr col) =
      some ((t.getCol col).map (cellTimesNegFactor f)) ∧
    (calculateEta t f).findCol (chanDwc col) =
      some ((t.getCol col).map (cellTimesNegFactor f)) := by
  obtain ⟨hdwc, hecr⟩ :=
    calcEtaLoop_channel t f col hmem hnd hdisj d1 d2 d3 d4 d5 d6 d7
  have hadj : nseAdjust ((t.getCol col).map (cellTimesNegFactor f))
      (t.findCol (chanNse col)) =
      (t.getCol col).map (cellTimesNegFactor f) := by
    cases hm : t.findCol (chanNse col) with
    | none => rfl
    | some l =>
      rw [hm] at hnse
      have hnotin : Cell.num 1 ∉ l := hnse
      simp only [nseAdjust]
      rw [if_neg]
      intro habs
      obtain ⟨b, hb, hbt⟩ := List.any_eq_true.mp habs
      obtain ⟨c, hc, hcb⟩ := List.mem_map.mp hb
      rw [← hcb] at hbt
      exact hnotin (beq_iff_eq.mp hbt ▸ hc)
  rw [hadj] at hecr
  have hcum' : ∀ m ∈ (calcEtaLoop t f).colNames,
      (strContains m "_ETa" && !strContains m "_Cumulative_ETa") = true →
      m.replace "_ETa" "_Cumulative_ETa" ≠ chanDwc col ∧
      m.replace "_ETa" "_Cumulative_ETa" ≠ chanEcr col := by
    intro m hm hPm
    rw [Bool.and_eq_true, Bool.not_eq_true'] at hPm
    exact hcum m hm hPm.1 hPm.2
  constructor
  · rw [show calculateEta t f = calculateCumulativeEta (calcEtaLoop t f)
      from rfl, calculateCumulativeEta_eq_fold,
      cumFold_findCol_other _ _ _ (fun m hm hPm => (hcum' m hm hPm).2)]
    exact hecr
  · rw [show calculateEta t f = calculateCumulativeEta (calcEtaLoop t f)
      from rfl, calculateCumulativeEta_eq_fold,
      cumFold_findCol_other _ _ _ (fun m hm hPm => (hcum' m hm hPm).1)]
    exact hdwc

set_option maxRecDepth 4000 in
/-- Witness for C1 (amended) on a concrete channel without an NSE column. -/
theorem c1_eta_raw_equals_delta_no_nse_witness :
    (calculateEta tblEta 1).findCol (chanEcr "X_deltaMVV") =
      some ((tblEta.getCol "X_deltaMVV").map (cellTimesNegFactor 1)) ∧
    (calculateEta tblEta 1).findCol (chanDwc "X_deltaMVV") =
      some ((tblEta.getCol "X_deltaMVV").map (cellTimesNegFactor 1)) :=
  c1_eta_raw_equals_delta_no_nse tblEta 1 "X_deltaMVV"
    (by with_unfolding_all decide) (by with_unfolding_all decide)
    (by with_unfolding_all decide) (by with_unfolding_all decide)
    (by with_unfolding_all decide) (by with_unfolding_all decide)
    (by with_unfolding_all decide) (by with_unfolding_all decide)
    (by with_unfolding_all decide) (by with_unfolding_all decide)
    (by
      have h : tblEta.findCol (chanNse "X_deltaMVV") = none := by
        with_unfolding_all decide
      rw [h]
      trivial)
    (by with_unfolding_all decide)

/-! ### Boundary-scan lemmas for the noisy-span interpolation -/

theorem getD_oob {α : Type} (l : List α) (i : Nat) (d : α)
    (h : l.length ≤ i) : l.getD i d = d := by
  rw [getD_eq_getElem?, List.getElem?_eq_none h]
  rfl

theorem getElem?_eq_some_getD {α : Type} (l : List α) (i : Nat) (d : α)
    (hi : i < l.length) : l[i]? = some (l.getD i d) := by
  rw [getD_eq_getElem?, List.getElem?_eq_getElem hi]
  rfl

theorem leftBound_none (p : Nat → Bool) (i : Nat)
    (h : leftBound p i = none) : ∀ k, k < i → p k = true := by
  induction i with
  | zero => omega
  | succ j ih =>
    unfold leftBound at h
    cases hq : p j with
    | false =>
      rw [hq] at h
      simp at h
    | true =>
      rw [hq] at h
      simp only [if_pos] at h
      intro k hk
      rcases Nat.lt_succ_iff_lt_or_eq.mp hk with hk' | hk'
      · exact ih h k hk'
      · exact hk' ▸ hq

theorem leftBound_some (p : Nat → Bool) (i s : Nat)
    (h : leftBound p i = some s) : s < i ∧ p s = false := by
  induction i with
  | zero => simp [leftBound] at h
  | succ j ih =>
    unfold leftBound at h
    cases hq : p j with
    | false =>
      rw [hq] at h
      simp only [Bool.false_eq_true, if_false, Option.some_inj] at h
      exact ⟨h ▸ Nat.lt_succ_self j, h ▸ hq⟩
    | true =>
      rw [hq] at h
      simp only [if_pos] at h
      obtain ⟨h1, h2⟩ := ih h
      exact ⟨Nat.lt_succ_of_lt h1, h2⟩

theorem rightBoundGo_none (p : Nat → Bool) (fuel j : Nat)
    (h : rightBoundGo p fuel j = none) :
    ∀ k, j ≤ k → k < j + fuel → p k = true := by
  induction fuel generalizing j with
  | zero => omega
  | succ f ih =>
    unfold rightBoundGo at h
    cases hq : p j with
    | false =>
      rw [hq] at h
      simp at h
    | true =>
      rw [hq] at h
      simp only [if_pos] at h
      intro k hk1 hk2
      rcases Nat.eq_or_lt_of_le hk1 with hk' | hk'
      · exact hk' ▸ hq
      · exact ih (j + 1) h k hk' (by omega)

theorem rightBoundGo_some (p : Nat → Bool) (fuel j e : Nat)
    (h : rightBoundGo p fuel j = some e) :
    j ≤ e ∧ e < j + fuel ∧ p e = false := by
  induction fuel generalizing j with
  | zero => simp [rightBoundGo] at h
  | succ f ih =>
    unfold rightBoundGo at h
    cases hq : p j with
    | false =>
      rw [hq] at h
      simp only [Bool.false_eq_true, if_false, Option.some_inj] at h
      exact ⟨h ▸ Nat.le_refl j, h ▸ (by omega), h ▸ hq⟩
    | true =>
      rw [hq] at h
      simp only [if_pos] at h
      obtain ⟨h1, h2, h3⟩ := ih (j + 1) h
      exact ⟨by omega, by omega, h3⟩

theorem rightBound_none (p : Nat → Bool) (n j : Nat)
    (h : rightBound p n j = none) : ∀ k, j ≤ k → k < n → p k = true := by
  intro k h1 h2
  exact rightBoundGo_none p (n - j) j h k h1 (by omega)

theorem rightBound_some (p : Nat → Bool) (n j e : Nat)
    (h : rightBound p n j = some e) : p e = false ∧ e < n := by
  unfold rightBound at h
  obtain ⟨h1, h2, h3⟩ := rightBoundGo_some p (n - j) j e h
  refine ⟨h3, ?_⟩
  by_cases hjn : j ≤ n
  · omega
  · rw [Nat.sub_eq_zero_of_le (by omega)] at h
    simp [rightBoundGo] at h

theorem writeSpan_length (x : List Cell) (s e : Nat) (v : List Cell) :
    (writeSpan x s e v).length = v.length := by
  rw [writeSpan, mapIdxL_length]

theorem writeSpan_getD_out (x : List Cell) (s e : Nat) (v : List Cell)
    (i : Nat) (h : ¬(s < i ∧ i < e)) :
    (writeSpan x s e v).getD i Cell.na = v.getD i Cell.na := by
  by_cases hi : i < v.length
  · unfold writeSpan
    rw [mapIdxL_getD _ _ _ _ Cell.na hi, if_neg h]
  · have h1 : (writeSpan x s e v).length ≤ i := by
      rw [writeSpan_length]
      omega
    rw [getD_oob _ _ _ h1, getD_oob _ _ _ (by omega)]

theorem noisyStep_getD_edge (x : List Cell) (mask : List Bool)
    (v : List Cell) (j i : Nat)
    (hfail : leftBound (badPos x mask) i = none ∨
      rightBound (badPos x mask) x.length (i + 1) = none)
    (hv : v.getD i Cell.na = x.getD i Cell.na) :
    (noisyStep x mask v j).getD i Cell.na = x.getD i Cell.na := by
  unfold noisyStep
  by_cases hmj : mask.getD j false = true
  · rw [if_pos hmj]
    cases hls : leftBound (badPos x mask) j with
    | none => exact hv
    | some s =>
      cases hrs : rightBound (badPos x mask) x.length (j + 1) with
      | none => exact hv
      | some e =>
        rw [writeSpan_getD_out]
        · exact hv
        · rintro ⟨hsi, hie⟩
          obtain ⟨hslt, hsf⟩ := leftBound_some _ _ _ hls
          obtain ⟨hef, hen⟩ := rightBound_some _ _ _ _ hrs
          rcases hfail with hL | hR
          · have hb := leftBound_none _ _ hL s hsi
            rw [hsf] at hb
            exact absurd hb (by simp)
          · have hb := rightBound_none _ _ _ hR e (by omega) hen
            rw [hef] at hb
            exact absurd hb (by simp)
  · rw [if_neg hmj]
    exact hv

theorem noisyLoop_getD_edge (x : List Cell) (mask : List Bool) (i : Nat)
    (hfail : leftBound (badPos x mask) i = none ∨
      rightBound (badPos x mask) x.length (i + 1) = none) :
    (noisyLoop x mask).getD i Cell.na = x.getD i Cell.na := by
  unfold noisyLoop
  have haux : ∀ (L : List Nat) (v : List Cell),
      v.getD i Cell.na = x.getD i Cell.na →
      (L.foldl (noisyStep x mask) v).getD i Cell.na = x.getD i Cell.na := by
    intro L
    induction L with
    | nil => exact fun v hv => hv
    | cons j js ih =>
      intro v hv
      rw [List.foldl_cons]
      exact ih _ (noisyStep_getD_edge x mask v j i hfail hv)
  exact haux _ x rfl

theorem noisyStep_length (x : List Cell) (mask : List Bool) (v : List Cell)
    (j : Nat) : (noisyStep x mask v j).length = v.length := by
  unfold noisyStep
  by_cases hmj : mask.getD j false = true
  · rw [if_pos hmj]
    cases leftBound (badPos x mask) j with
    | none => rfl
    | some s =>
      cases rightBound (badPos x mask) x.length (j + 1) with
      | none => rfl
      | some e => exact writeSpan_length x s e v
  · rw [if_neg hmj]

theorem noisyLoop_length (x : List Cell) (mask : List Bool) :
    (noisyLoop x mask).length = x.length := by
  unfold noisyLoop
  have haux : ∀ (L : List Nat) (v : List Cell),
      (L.foldl (noisyStep x mask) v).length = v.length := by
    intro L
    induction L with
    | nil => exact fun v => rfl
    | cons j js ih =>
      intro v
      rw [List.foldl_cons, ih, noisyStep_length]
  exact haux _ x

theorem leftBound_some_between (p : Nat → Bool) (i s : Nat)
    (h : leftBound p i = some s) : ∀ k, s < k → k < i → p k = true := by
  induction i with
  | zero => simp [leftBound] at h
  | succ j ih =>
    unfold leftBound at h
    cases hq : p j with
    | false =>
      rw [hq] at h
      simp only [Bool.false_eq_true, if_false, Option.some_inj] at h
      intro k h1 h2
      omega
    | true =>
      rw [hq] at h
      simp only [if_pos] at h
      intro k h1 h2
      rcases Nat.lt_succ_iff_lt_or_eq.mp h2 with h' | h'
      · exact ih h k h1 h'
      · exact h' ▸ hq

theorem rightBoundGo_some_between (p : Nat → Bool) (fuel j e : Nat)
    (h : rightBoundGo p fuel j = some e) :
    ∀ k, j ≤ k → k < e → p k = true := by
  induction fuel generalizing j with
  | zero => simp [rightBoundGo] at h
  | succ f ih =>
    unfold rightBoundGo at h
    cases hq : p j with
    | false =>
      rw [hq] at h
      simp only [Bool.false_eq_true, if_false, Option.some_inj] at h
      intro k h1 h2
      omega
    | true =>
      rw [hq] at h
      simp only [if_pos] at h
      intro k h1 h2
      rcases Nat.eq_or_lt_of_le h1 with h' | h'
      · exact h' ▸ hq
      · exact ih (j + 1) h k h' h2

theorem rightBound_some_between (p : Nat → Bool) (n j e : Nat)
    (h : rightBound p n j = some e) : ∀ k, j ≤ k → k < e → p k = true := by
  unfold rightBound at h
  exact rightBoundGo_some_between p (n - j) j e h

theorem rightBound_some_ge (p : Nat → Bool) (n j e : Nat)
    (h : rightBound p n j = some e) : j ≤ e := by
  unfold rightBound at h
  exact (rightBoundGo_some p (n - j) j e h).1

/-- Between any noisy row and its two scan results, every position strictly
inside the pair is bad; hence two scan-result pairs whose interiors overlap
coincide: the scans of a common bad run always return the run's unique
delimiters. -/
theorem bound_unique (p : Nat → Bool) (n i j s e t f : Nat)
    (hls : leftBound p i = some s)
    (hrs : rightBound p n (i + 1) = some e)
    (hlj : leftBound p j = some t)
    (hrj : rightBound p n (j + 1) = some f)
    (hpj : p j = true)
    (hin : t < i ∧ i < f) :
    t = s ∧ f = e := by
  obtain ⟨hsi, hsp⟩ := leftBound_some p i s hls
  obtain ⟨hep, hen⟩ := rightBound_some p n (i + 1) e hrs
  obtain ⟨htj, htp⟩ := leftBound_some p j t hlj
  obtain ⟨hfp, hfn⟩ := rightBound_some p n (j + 1) f hrj
  have hie : i + 1 ≤ e := rightBound_some_ge p n (i + 1) e hrs
  have hbetw_i := leftBound_some_between p i s hls
  have hbetw_ir := rightBound_some_between p n (i + 1) e hrs
  have hbetw_j := leftBound_some_between p j t hlj
  have hbetw_jr := rightBound_some_between p n (j + 1) f hrj
  have hbadOn : ∀ k, t < k → k < f → p k = true := by
    intro k h1 h2
    rcases Nat.lt_trichotomy k j with h' | h' | h'
    · exact hbetw_j k h1 h'
    · exact h' ▸ hpj
    · exact hbetw_jr k (by omega) h2
  constructor
  · rcases Nat.lt_trichotomy t s with h' | h' | h'
    · exact absurd (hbadOn s h' (by omega)) (by simp [hsp])
    · exact h'
    · exact absurd (hbetw_i t h' hin.1) (by simp [htp])
  · rcases Nat.lt_trichotomy f e with h' | h' | h'
    · exact absurd (hbetw_ir f (by omega) h') (by simp [hfp])
    · exact h'
    · exact absurd (hbadOn e (by omega) h') (by simp [hep])

/-- A span write whose boundary raw value is missing writes `NaN` at every
interior position (the `match` of `writeSpan` falls through to `Cell.na`). -/
theorem writeSpan_getD_in_na (x : List Cell) (s e : Nat) (v : List Cell)
    (i : Nat) (h : s < i ∧ i < e)
    (hna : x.getD s Cell.na = Cell.na ∨ x.getD e Cell.na = Cell.na) :
    (writeSpan x s e v).getD i Cell.na = Cell.na := by
  by_cases hi : i < v.length
  · unfold writeSpan
    rw [mapIdxL_getD _ _ _ _ Cell.na hi, if_pos h]
    rcases hna with hh | hh
    · rw [hh]
    · rw [hh]
      cases x.getD s Cell.na <;> rfl
  · rw [getD_oob _ _ _ (by rw [writeSpan_length]; omega)]

/-- No step of the interpolation loop can replace a missing value at a row
whose own scans stop at a missing boundary: any step writing there shares
the same boundary pair (by `bound_unique`), so it writes `NaN` again. -/
theorem noisyStep_getD_na (x : List Cell) (mask : List Bool)
    (v : List Cell) (j i s e : Nat)
    (hls : leftBound (badPos x mask) i = some s)
    (hrs : rightBound (badPos x mask) x.length (i + 1) = some e)
    (hna : x.getD s Cell.na = Cell.na ∨ x.getD e Cell.na = Cell.na)
    (hv : v.getD i Cell.na = Cell.na) :
    (noisyStep x mask v j).getD i Cell.na = Cell.na := by
  unfold noisyStep
  by_cases hmj : mask.getD j false = true
  · rw [if_pos hmj]
    cases hlj : leftBound (badPos x mask) j with
    | none => exact hv
    | some t =>
      cases hrj : rightBound (badPos x mask) x.length (j + 1) with
      | none => exact hv
      | some f =>
        by_cases hin : t < i ∧ i < f
        · have hpj : badPos x mask j = true := by
            simp only [badPos, hmj, Bool.true_or]
          obtain ⟨hts, hfe⟩ :=
            bound_unique (badPos x mask) x.length i j s e t f hls hrs hlj
              hrj hpj hin
          refine writeSpan_getD_in_na x t f v i hin ?_
          rw [hts, hfe]
          exact hna
        · rw [writeSpan_getD_out _ _ _ _ _ hin]
          exact hv
  · rw [if_neg hmj]
    exact hv

theorem range_split (n i : Nat) (h : i < n) :
    List.range n = List.range i ++ i :: List.range' (i + 1) (n - (i + 1)) := by
  rw [List.range_eq_range', List.range_eq_range']
  nth_rewrite 1 [show n = (n - i) + i from by omega]
  rw [← List.range'_append 0 i (n - i) 1]
  congr 1
  rw [show 0 + 1 * i = i from by omega,
    show n - i = (n - (i + 1)) + 1 from by omega, List.range'_succ]

/-- A noisy row whose scans stop at a missing raw boundary ends the
interpolation loop missing: its own step writes `NaN` there and no later
step can replace it. -/
theorem noisyLoop_getD_na_boundary (x : List Cell) (mask : List Bool)
    (i s e : Nat)
    (hm : mask.getD i false = true)
    (hls : leftBound (badPos x mask) i = some s)
    (hrs : rightBound (badPos x mask) x.length (i + 1) = some e)
    (hna : x.getD s Cell.na = Cell.na ∨ x.getD e Cell.na = Cell.na) :
    (noisyLoop x mask).getD i Cell.na = Cell.na := by
  have hen : e < x.length := (rightBound_some _ _ _ _ hrs).2
  have hie : i + 1 ≤ e := rightBound_some_ge _ _ _ _ hrs
  have hin : i < x.length := by omega
  have hstep : ∀ v : List Cell,
      (noisyStep x mask v i).getD i Cell.na = Cell.na := by
    intro v
    unfold noisyStep
    rw [if_pos hm]
    simp only [hls, hrs]
    exact writeSpan_getD_in_na x s e v i
      ⟨(leftBound_some _ _ _ hls).1, by omega⟩ hna
  have haux : ∀ (L : List Nat) (v : List Cell), v.getD i Cell.na = Cell.na →
      (L.foldl (noisyStep x mask) v).getD i Cell.na = Cell.na := by
    intro L
    induction L with
    | nil => exact fun v hv => hv
    | cons j js ih =>
      intro v hv
      rw [List.foldl_cons]
      exact ih _ (noisyStep_getD_na x mask v j i s e hls hrs hna hv)
  unfold noisyLoop
  rw [range_split x.length i hin, List.foldl_append, List.foldl_cons]
  exact haux _ _ (hstep _)

theorem ffillGo_length (carry : Option Cell) (l : List Cell) :
    (ffillGo carry l).length = l.length := by
  induction l generalizing carry with
  | nil => rfl
  | cons c cs ih =>
    cases c with
    | na => simp [ffillGo, ih]
    | num q => simp [ffillGo, ih]
    | str s => simp [ffillGo, ih]

theorem ffillGo_getElem?_of_ne_na (l : List Cell) (i : Nat) (c : Cell)
    (hc : c ≠ Cell.na) :
    ∀ carry, l[i]? = some c → (ffillGo carry l)[i]? = some c := by
  induction l generalizing i with
  | nil => intro carry h; simp at h
  | cons d ds ih =>
    intro carry h
    cases i with
    | zero =>
      simp only [List.getElem?_cons_zero, Option.some_inj] at h
      cases h
      cases c with
      | na => exact absurd rfl hc
      | num q => simp [ffillGo]
      | str s => simp [ffillGo]
    | succ k =>
      simp only [List.getElem?_cons_succ] at h
      cases d with
      | na => simpa [ffillGo] using ih k _ h
      | num q => simpa [ffillGo] using ih k _ h
      | str s => simpa [ffillGo] using ih k _ h

theorem bfill_getElem?_of_ne_na (l : List Cell) (i : Nat) (c : Cell)
    (h : l[i]? = some c) (hc : c ≠ Cell.na) : (bfill l)[i]? = some c := by
  unfold bfill
  have hi : i < l.length := (List.getElem?_eq_some_iff.mp h).1
  have hlen : (ffillGo none l.reverse).length = l.length := by
    rw [ffillGo_length, List.length_reverse]
  rw [List.getElem?_reverse (by omega)]
  rw [hlen]
  apply ffillGo_getElem?_of_ne_na _ _ _ hc
  rw [List.getElem?_reverse (by omega)]
  have hidx : l.length - 1 - (l.length - 1 - i) = i := by omega
  rw [hidx]
  exact h

theorem ffill_getElem?_of_ne_na (l : List Cell) (i : Nat) (c : Cell)
    (h : l[i]? = some c) (hc : c ≠ Cell.na) : (ffill l)[i]? = some c :=
  ffillGo_getElem?_of_ne_na l i c hc none h

/-- A four-row raw-ETa table whose first two rows are noisy with no clean
boundary on the left. -/
def tblNoisy : Table :=
  [("TIMESTAMP", [Cell.num 0, Cell.num 1, Cell.num 2, Cell.num 3]),
   ("X_ETa_Raw", [Cell.num (-1), Cell.num 1, Cell.num 1, Cell.num 1])]

set_option maxRecDepth 8000 in
/-- C3 counterexample: rows 0 and 1 are noisy (negative value, then a -200%
jump) and the span has no clean boundary on the left, so per the claim they
should be left missing and then backward-filled with 1; the code instead
applies no write at all and the final `X_ETa` column keeps the raw values,
-1 at row 0. -/
theorem c3_edge_span_counterexample :
    (interpolateNoisyEta tblNoisy "X_ETa_Raw" 70).findCol "X_ETa" =
      some [Cell.num (-1), Cell.num 1, Cell.num 1, Cell.num 1] ∧
    (interpolateNoisyEta tblNoisy "X_ETa_Raw" 70).findCol "X_Noisy_Flag" =
      some [Cell.num 1, Cell.num 1, Cell.num 0, Cell.num 0] ∧
    Cell.num (-1) ≠ Cell.num 1 := by
  refine ⟨?_, ?_, ?_⟩ <;> with_unfolding_all decide

/-- A four-row raw-ETa table whose second and third rows are noisy and
whose noisy span is delimited on the left by a missing raw value. -/
def tblNoisy2 : Table :=
  [("TIMESTAMP", [Cell.num 0, Cell.num 1, Cell.num 2, Cell.num 3]),
   ("X_ETa_Raw", [Cell.na, Cell.num (-1), Cell.num 1, Cell.num 1])]

/-- C3 (amended): the boundary scan of the noisy-span cleanup skips rows
that are flagged noisy or whose raw value is non-positive; a missing raw
value stops the scan and becomes the boundary.  The final `_ETa` column is
the forward- then backward-fill of the loop output.  When a noisy row's
scan runs off the table on either side, no write reaches that row: a
present raw value survives into the final `_ETa` column (the fill only
changes rows already missing in the raw series).  When both scans stop but
a boundary raw value is missing, the interpolation formula propagates the
missing value: the loop leaves the noisy row missing, and only the closing
forward/backward fill then fills it. -/
theorem c3_edge_span_keeps_raw
    (a : Table) (ecr : String) (thr : ℚ) (x : List Cell) (i : Nat)
    (hx : a.findCol ecr = some x)
    (hm : (noisyMaskAll x (nseMaskOf a ecr x) thr).getD i false = true) :
    ∃ v, (interpolateNoisyEta a ecr thr).findCol
        (ecr.replace "_ETa_Raw" "_ETa") = some v ∧
      v = bfill (ffill (noisyLoop x (noisyMaskAll x (nseMaskOf a ecr x) thr))) ∧
      ((leftBound (badPos x (noisyMaskAll x (nseMaskOf a ecr x) thr)) i
          = none ∨
        rightBound (badPos x (noisyMaskAll x (nseMaskOf a ecr x) thr))
          x.length (i + 1) = none) →
        x.getD i Cell.na ≠ Cell.na →
        v.getD i Cell.na = x.getD i Cell.na) ∧
      (∀ s e,
        leftBound (badPos x (noisyMaskAll x (nseMaskOf a ecr x) thr)) i
          = some s →
        rightBound (badPos x (noisyMaskAll x (nseMaskOf a ecr x) thr))
          x.length (i + 1) = some e →
        (x.getD s Cell.na = Cell.na ∨ x.getD e Cell.na = Cell.na) →
        (noisyLoop x (noisyMaskAll x (nseMaskOf a ecr x) thr)).getD i Cell.na
          = Cell.na) := by
  refine ⟨bfill (ffill (noisyLoop x (noisyMaskAll x (nseMaskOf a ecr x) thr))),
    ?_, rfl, ?_, ?_⟩
  · simp only [interpolateNoisyEta, hx]
    exact findCol_setCol_self _ _ _
  · intro hfail hnotna
    have hi : i < x.length := by
      by_contra hlt
      exact hnotna (getD_oob _ _ _ (by omega))
    have hloop : (noisyLoop x (noisyMaskAll x (nseMaskOf a ecr x) thr)).getD i
        Cell.na = x.getD i Cell.na :=
      noisyLoop_getD_edge x _ i hfail
    have hlen : i <
        (noisyLoop x (noisyMaskAll x (nseMaskOf a ecr x) thr)).length := by
      rw [noisyLoop_length]
      exact hi
    have hsome : (noisyLoop x (noisyMaskAll x (nseMaskOf a ecr x) thr))[i]? =
        some (x.getD i Cell.na) := by
      rw [getElem?_eq_some_getD _ _ Cell.na hlen, hloop]
    have hbf : (bfill (ffill (noisyLoop x
        (noisyMaskAll x (nseMaskOf a ecr x) thr))))[i]? =
        some (x.getD i Cell.na) :=
      bfill_getElem?_of_ne_na _ _ _
        (ffill_getElem?_of_ne_na _ _ _ hsome hnotna) hnotna
    rw [getD_eq_getElem?, hbf]
    rfl
  · intro s e hls hrs hna
    exact noisyLoop_getD_na_boundary x _ i s e hm hls hrs hna

set_option maxRecDepth 8000 in
/-- Witness for C3 (amended), one concrete row per regime: at row 0 of
`tblNoisy` the left scan falls off the front and the raw value -1 survives
into `X_ETa`; at row 1 of `tblNoisy2` the scans stop at positions 0 and 3
and the missing boundary value at position 0 makes the loop leave the row
missing. -/
theorem c3_edge_span_keeps_raw_witness :
    (∃ v, (interpolateNoisyEta tblNoisy "X_ETa_Raw" 70).findCol
        ("X_ETa_Raw".replace "_ETa_Raw" "_ETa") = some v ∧
      v.getD 0 Cell.na = Cell.num (-1)) ∧
    (noisyLoop [Cell.na, Cell.num (-1), Cell.num 1, Cell.num 1]
      (noisyMaskAll [Cell.na, Cell.num (-1), Cell.num 1, Cell.num 1]
        (nseMaskOf tblNoisy2 "X_ETa_Raw"
          [Cell.na, Cell.num (-1), Cell.num 1, Cell.num 1]) 70)).getD 1
      Cell.na = Cell.na := by
  constructor
  · obtain ⟨v, h1, h2, hA, hB⟩ :=
      c3_edge_span_keeps_raw tblNoisy "X_ETa_Raw" 70
        [Cell.num (-1), Cell.num 1, Cell.num 1, Cell.num 1] 0
        (by with_unfolding_all decide) (by with_unfolding_all decide)
    refine ⟨v, h1, ?_⟩
    rw [hA (Or.inl (by with_unfolding_all decide)) (by decide)]
    rfl
  · obtain ⟨v, h1, h2, hA, hB⟩ :=
      c3_edge_span_keeps_raw tblNoisy2 "X_ETa_Raw" 70
        [Cell.na, Cell.num (-1), Cell.num 1, Cell.num 1] 1
        (by with_unfolding_all decide) (by with_unfolding_all decide)
    exact hB 0 3 (by with_unfolding_all decide) (by with_unfolding_all decide)
      (Or.inl (by decide))

/-- Witness for C7 applying the custom-pair branch at alpha = 2, beta = 4. -/
theorem c7_calibration_resolution_witness :
    resolveCalibration none (some 2) (some 4) =
      Except.ok ((2 : ℚ) * (1 / 1000) * (1 / 4) * 1000) :=
  c7_calibration_resolution.2.1 2 4
